import Mathlib

/-!
Verification of the order-extraction and order-state engine of the
restaurant voice-ordering assistant (source: `src/cursorquit/agent.py`,
class `ConversationTracker` and the per-turn handler `process_user_speech`;
`src/agent_clean.py` holds a reduced variant of the same tracker).

The regex layer of the source (Python `re.search` / `re.finditer` over the
fixed name / time / quantity / portion pattern lists) is modelled as an
input structure `TextAnalysis` holding, per pattern in source order, the
captured groups exactly as the source post-processes them.  Everything the
patterns feed into — the filler-word filter, the hour/minute range check,
the substring tests (`in`), the menu catalogue scan, the upsert logic, the
modifier attribution and the conversation policy — is translated directly
from the source.  Universally quantified theorems range over all analyses,
hence over all utterances; concrete instances use the analysis the source
regexes produce on that utterance.
-/

namespace RestaurantAI

/-- `leadsWith p s` : the char list `p` starts the char list `s`. -/
def leadsWith : List Char → List Char → Bool
  | [], _ => true
  | _ :: _, [] => false
  | a :: as, b :: bs => a == b && leadsWith as bs

/-- `occursIn p s` : the char list `p` occurs contiguously inside `s`. -/
def occursIn (p : List Char) : List Char → Bool
  | [] => p.isEmpty
  | c :: rest => leadsWith p (c :: rest) || occursIn p rest

/-- Python's substring test `pat in s`. -/
def pyIn (pat s : String) : Bool := occursIn pat.data s.data

/-- One order line: `{"item": ..., "quantity": ..., "personalizacoes": {...}}`;
the `personalizacoes` dict has at most the keys `molho` and `picante`,
modelled as the two `Option` fields. -/
structure OrderItem where
  item : String
  quantity : Nat
  molho : Option String
  picante : Option String
  deriving Repr, DecidableEq

/-- `ConversationTracker.order_details`. -/
structure OrderDetails where
  customer_name : Option String
  pickup_time : Option String
  items : List OrderItem
  deriving Repr, DecidableEq

/-- The result of running the source's fixed regex pattern lists over one
message (lower-cased by the source before matching).  Fields hold, per
pattern in source order, the captured payload exactly as the source
post-processes it:
* `nameMatches` — per name pattern, the `potential_name` (joined and
  stripped capture) or `none` when the pattern does not match;
* `timeMatches` — per time pattern, `(int(group(1)), int(group(2)) or 0)`;
* `quantityMatches` — per quantity pattern, the two captured group texts;
* `portionFull` / `portionHalf` — the stripped `group(1)` captures of every
  match of the two portion patterns (`finditer`). -/
structure TextAnalysis where
  nameMatches : List (Option String)
  timeMatches : List (Option (Nat × Nat))
  quantityMatches : List (Option (String × String))
  portionFull : List String
  portionHalf : List String
  deriving Repr

/-- Python `s.lower()` (character-wise lower-casing, evaluated on the
underlying character list). -/
def pyLower (s : String) : String := ⟨s.data.map Char.toLower⟩

/-- Split a character list on space runs, accumulating the current word. -/
def splitWordsAux : List Char → List Char → List String
  | [], [] => []
  | [], cur => [⟨cur.reverse⟩]
  | c :: rest, cur =>
    if c == ' ' then
      match cur with
      | [] => splitWordsAux rest []
      | _ :: _ => (⟨cur.reverse⟩ : String) :: splitWordsAux rest []
    else splitWordsAux rest (c :: cur)

/-- The filler block-list `common_words`. -/
def commonWords : List String :=
  ["obrigado", "bom", "boa", "dia", "tarde", "noite", "gostaria", "desejo", "quero"]

/-- Python `s.split()` (split on whitespace runs, drop empty fragments). -/
def pyWords (s : String) : List String := splitWordsAux s.data []

/-- The name filter: `len(potential_name.split()) >= 2 and not
any(word in potential_name.lower() for word in common_words)`. -/
def validName (s : String) : Bool :=
  decide ((pyWords s).length ≥ 2) && !(commonWords.any (fun w => pyIn w (pyLower s)))

/-- One iteration of the name loop: a match passing the filter replaces the
accumulator (the source loop has no `break`, so the last one wins). -/
def nameStep (acc : Option String) (c : Option String) : Option String :=
  match c with
  | some nm => if validName nm then some nm else acc
  | none => acc

/-- The name loop over the four name patterns. -/
def extractName (cands : List (Option String)) : Option String :=
  cands.foldl nameStep none

/-- Python `f"{n:02d}"`. -/
def pad2 (n : Nat) : String := if n < 10 then "0" ++ toString n else toString n

/-- One iteration of the time loop: hour 0–23 and minute 0–59 or the
candidate is discarded; a valid candidate replaces the accumulator. -/
def timeStep (acc : Option String) (c : Option (Nat × Nat)) : Option String :=
  match c with
  | some hm => if hm.1 ≤ 23 && hm.2 ≤ 59 then some (pad2 hm.1 ++ ":" ++ pad2 hm.2) else acc
  | none => acc

/-- The time loop over the four time patterns (no `break`). -/
def extractTime (cands : List (Option (Nat × Nat))) : Option String :=
  cands.foldl timeStep none

/-- The `menu_items` alias → canonical-name mapping, in declaration order
(Python dicts preserve insertion order). -/
def menuItems : List (String × String) := [
  ("frango do churrasco", "Frango do Churrasco"),
  ("1/2 frango", "1/2 Frango do Churrasco"),
  ("espetada de guia", "Espetada de Guia (Caleto)"),
  ("espetada de frango", "Espetada de Frango c/ Bacon"),
  ("entrecosto", "Dose de Entrecosto"),
  ("salsicha toscana", "Salsicha Toscana"),
  ("févera de porco", "Févera de Porco"),
  ("costeleta de vitela", "Costeleta de Vitela"),
  ("costeleta de porco", "Costeleta de Porco"),
  ("coelho", "Coelho"),
  ("costelinha", "Costelinha"),
  ("picanha", "Picanha"),
  ("bife do frango", "Bife do Frango"),
  ("bife do lombo", "Bife do Lombo"),
  ("batata frita", "Dose de Batata Frita"),
  ("batata frita barrosa", "Dose de Batata Frita Barrosa"),
  ("arroz", "Dose de Arroz"),
  ("salada mista", "Salada Mista"),
  ("salada de tomate", "Salada de Tomate"),
  ("salada de alface", "Salada de Alface"),
  ("feijão preto", "Dose de Feijão Preto"),
  ("esparregado", "Esparregado Grelos/Espinafres"),
  ("broa de milho", "Broa de Milho"),
  ("broa de avintes", "Broa de Avintes"),
  ("trança", "Trança (Caceté)"),
  ("cacete", "Trança (Caceté)"),
  ("bacalhau", "Bacalhau assado na brasa"),
  ("bacalhau assado", "Bacalhau assado na brasa"),
  ("refrigerante", "Refrigerantes 1 Litro"),
  ("vinho verde", "Vinho da Casa Cruzeiro Lima"),
  ("muralhas monção", "Vinho Branco Muralhas Monção"),
  ("casal garcia", "Vinho Branco Casal Garcia"),
  ("porta da ravessa", "Vinho Porta da Ravessa"),
  ("castiço", "Vinho Gasificado Castiço"),
  ("monte velho", "Vinho Monte Velho Tinto"),
  ("eugénio de almeida", "Vinho Eugénio de Almeida Tinto")]

/-- `CARNE_PERSONALIZACOES["molhos"]`. -/
def molhosList : List String := ["molho da casa", "molho da guia", "molho sem alho", "sem molhos"]

/-- `CARNE_PERSONALIZACOES["picante"]`. -/
def picanteList : List String := ["sem picante", "pouco picante", "picante", "muito picante"]

/-- The lower-case meat keyword list used against alias keys. -/
def carnesLow : List String :=
  ["frango", "espetada", "entrecosto", "févera", "costeleta", "coelho",
   "costelinha", "picanha", "bife"]

/-- The capitalised meat keyword list used against canonical item names. -/
def carnesCap : List String :=
  ["Frango", "Espetada", "Entrecosto", "Févera", "Costeleta", "Coelho",
   "Costelinha", "Picanha", "Bife"]

/-- `any(carne in item_key for carne in carnes)` (lower-case list). -/
def meatKey (k : String) : Bool := carnesLow.any (fun c => pyIn c k)

/-- `any(carne in item["item"] for carne in carnes)` (capitalised list). -/
def meatCapName (n : String) : Bool := carnesCap.any (fun c => pyIn c n)

/-- Evaluate a decimal digit string. -/
def digitsToNat (s : String) : Nat := s.data.foldl (fun acc c => acc * 10 + (c.toNat - 48)) 0

/-- Python `int(s)` on a captured group: succeeds exactly on non-empty
all-digit text (the failing case is caught by the source's `except`). -/
def pyToNat (s : String) : Option Nat :=
  if s ≠ "" && s.data.all Char.isDigit then some (digitsToNat s) else none

/-- The quantity loop body over the two quantity patterns: `quantity = 1`,
first pattern whose match contains the alias in a group and whose `int`
conversion succeeds wins; a `ValueError` is passed over. -/
def findQuantityAux (key : String) : List (Option (String × String)) → Nat
  | [] => 1
  | none :: rest => findQuantityAux key rest
  | some (g1, g2) :: rest =>
    if pyIn key (pyLower g1) || pyIn key (pyLower g2) then
      match (if pyIn key (pyLower g2) then pyToNat g1 else pyToNat g2) with
      | some q => q
      | none => findQuantityAux key rest
    else findQuantityAux key rest

/-- Quantity for one alias key from this message's quantity-pattern matches. -/
def findQuantity (qms : List (Option (String × String))) (key : String) : Nat :=
  findQuantityAux key qms

/-- The per-mention `personalizacoes` dict: built only when the alias key
contains a meat keyword; each modifier kind takes the first vocabulary
entry found as a substring of the lower-cased message. -/
def persOf (ml key : String) : Option String × Option String :=
  if meatKey key then
    (molhosList.find? (fun m => pyIn m ml), picanteList.find? (fun p => pyIn p ml))
  else (none, none)

/-- The update arm of the upsert: `existing["quantity"] = quantity;
if personalizacoes: existing["personalizacoes"] = personalizacoes`
(a non-empty dict replaces the whole stored dict). -/
def updateItem (name : String) (q : Nat) (pers : Option String × Option String)
    (it : OrderItem) : OrderItem :=
  if it.item == name then
    { it with
        quantity := q,
        molho := if pers.1.isSome || pers.2.isSome then pers.1 else it.molho,
        picante := if pers.1.isSome || pers.2.isSome then pers.2 else it.picante }
  else it

/-- One iteration of the direct-mention loop: alias substring test, quantity
search, personalisation search, then upsert (append when the canonical name
is absent, otherwise update every entry carrying it). -/
def directStep (ml : String) (qms : List (Option (String × String)))
    (items : List OrderItem) (kv : String × String) : List OrderItem :=
  if pyIn kv.1 ml then
    let q := findQuantity qms kv.1
    let pers := persOf ml kv.1
    if items.any (fun it => it.item == kv.2) then
      items.map (updateItem kv.2 q pers)
    else
      items ++ [{ item := kv.2, quantity := q, molho := pers.1, picante := pers.2 }]
  else items

/-- The direct-mention loop over the whole menu catalogue (user turns only). -/
def directPhase (ml : String) (qms : List (Option (String × String)))
    (items : List OrderItem) : List OrderItem :=
  menuItems.foldl (directStep ml qms) items

/-- `item_base in item_key` scan: first menu entry whose alias contains the
captured portion text. -/
def portionResolve (base : String) : Option String :=
  (menuItems.find? (fun kv => pyIn base kv.1)).map (fun kv => kv.2)

/-- Display-name rewrite for a half-portion hint. -/
def portionFullName (isHalf : Bool) (name : String) : String :=
  if isHalf && !(pyIn "1/2" name) then "1/2 " ++ name else name

/-- One portion-pattern match: resolve the captured base, rewrite the
display name, append when absent (quantity 1, empty personalisation). -/
def portionStep (isHalf : Bool) (items : List OrderItem) (base : String) : List OrderItem :=
  match portionResolve base with
  | none => items
  | some name =>
    let full := portionFullName isHalf name
    if items.any (fun it => it.item == full) then items
    else items ++ [{ item := full, quantity := 1, molho := none, picante := none }]

/-- Both portion patterns over all their matches (runs on every turn). -/
def portionPhase (p0 p1 : List String) (items : List OrderItem) : List OrderItem :=
  p1.foldl (portionStep true) (p0.foldl (portionStep false) items)

/-- The broad modifier-attribution block: for every item whose canonical name
contains a capitalised meat keyword, fill each still-missing modifier kind
with the first vocabulary entry found in the message. -/
def broadStep (ml : String) (it : OrderItem) : OrderItem :=
  if meatCapName it.item then
    { it with
      molho := match it.molho with
        | some v => some v
        | none => molhosList.find? (fun m => pyIn m ml),
      picante := match it.picante with
        | some v => some v
        | none => picanteList.find? (fun p => pyIn p ml) }
  else it

/-- The modifier-attribution loop over the whole order. -/
def broadPhase (ml : String) (items : List OrderItem) : List OrderItem :=
  items.map (broadStep ml)

/-- `ConversationTracker._extract_order_details(message, is_user)`:
name (first-write-wins), time (first-write-wins), direct item mentions
(user turns only), portion mentions, broad modifier attribution. -/
def extractOrderDetails (message : String) (a : TextAnalysis) (isUser : Bool)
    (od : OrderDetails) : OrderDetails :=
  let ml := pyLower message
  { customer_name :=
      match od.customer_name with
      | some n => some n
      | none => extractName a.nameMatches,
    pickup_time :=
      match od.pickup_time with
      | some t => some t
      | none => extractTime a.timeMatches,
    items :=
      broadPhase ml (portionPhase a.portionFull a.portionHalf
        (if isUser then directPhase ml a.quantityMatches od.items else od.items)) }

/-- The responses `process_user_speech` can voice on one turn. -/
inductive Action where
  | askMolho | askPicante | showMenu | askNome | askHora | registado | summary | silent
  deriving Repr, DecidableEq

/-- The meat filter building `itens_carne` (lower-cased item name against
the lower-case keyword list). -/
def meatLow (it : OrderItem) : Bool := carnesLow.any (fun c => pyIn c (pyLower it.item))

/-- The per-item modifier interrogation: first meat item missing a sauce
asks `Molho?`, else missing a spice level asks `Picante?`. -/
def scanMeatQuestions : List OrderItem → Option Action
  | [] => none
  | it :: rest =>
    if it.molho.isNone then some Action.askMolho
    else if it.picante.isNone then some Action.askPicante
    else scanMeatQuestions rest

/-- The modifier-question stage over `itens_carne`. -/
def firstMeatQuestion (items : List OrderItem) : Option Action :=
  scanMeatQuestions (items.filter meatLow)

/-- The response ladder of `process_user_speech` after its extraction call:
modifier questions, then the menu keyword, then the confirm/finish keyword
ladder; silence otherwise. -/
def speechPolicy (content : String) (od : OrderDetails) : OrderDetails × Action :=
  match firstMeatQuestion od.items with
  | some act => (od, act)
  | none =>
    if pyIn "menu" content || pyIn "cardápio" content || pyIn "carta" content then
      (od, Action.showMenu)
    else if pyIn "confirmar" content || pyIn "confirmo" content ||
        pyIn "completo" content || pyIn "terminar" content then
      if od.items.isEmpty then (od, Action.silent)
      else if od.customer_name.isNone then (od, Action.askNome)
      else if od.pickup_time.isNone then (od, Action.askHora)
      else if pyIn "confirmar" content || pyIn "confirmo" content then (od, Action.registado)
      else if (pyIn "completo" content || pyIn "terminar" content) && !od.items.isEmpty then
        (od, Action.summary)
      else (od, Action.silent)
    else (od, Action.silent)

/-- `process_user_speech(msg, content, assistant)`: extraction on the
content (as a user turn), then the response ladder. -/
def processUserSpeech (content : String) (a : TextAnalysis) (od : OrderDetails) :
    OrderDetails × Action :=
  speechPolicy content (extractOrderDetails content a true od)

/-- The order state at call start. -/
def emptyOrder : OrderDetails := { customer_name := none, pickup_time := none, items := [] }

/-- A whole call: fold extraction over the transcript's messages
(`(message, analysis, is_user)` per turn), starting from the empty order. -/
def runMessages (msgs : List (String × TextAnalysis × Bool)) : OrderDetails :=
  msgs.foldl (fun od m => extractOrderDetails m.1 m.2.1 m.2.2 od) emptyOrder

/-! ### Verification-layer helper definitions -/

/-- The guarded per-item action of one direct-mention iteration. -/
def itemStep (ml : String) (qms : List (Option (String × String)))
    (it : OrderItem) (kv : String × String) : OrderItem :=
  if pyIn kv.1 ml then updateItem kv.2 (findQuantity qms kv.1) (persOf ml kv.1) it else it

/-- The accumulated per-item action of the direct-mention loop. -/
def itemAll (ml : String) (qms : List (Option (String × String)))
    (ks : List (String × String)) (it : OrderItem) : OrderItem :=
  ks.foldl (itemStep ml qms) it

/-- Some entry of `items` carries the canonical name `n`. -/
def containsName (n : String) (items : List OrderItem) : Bool :=
  items.any (fun it => it.item == n)

/-- The message's global modifier pair (first sauce / first spice found). -/
def mpair (ml : String) : Option String × Option String :=
  (molhosList.find? (fun m => pyIn m ml), picanteList.find? (fun p => pyIn p ml))

/-- Some alias in `ks` matches the message and maps to canonical name `n`. -/
def matchedIn (ml : String) (ks : List (String × String)) (n : String) : Bool :=
  ks.any (fun kv => pyIn kv.1 ml && kv.2 == n)

/-- Accumulator form of `lastMatchQ`. -/
def lastQAux (ml : String) (qms : List (Option (String × String))) (n : String)
    (acc : Option Nat) : List (String × String) → Option Nat
  | [] => acc
  | kv :: ks =>
    lastQAux ml qms n
      (if pyIn kv.1 ml && kv.2 == n then some (findQuantity qms kv.1) else acc) ks

/-- The quantity written by the last matching alias of canonical name `n`. -/
def lastMatchQ (ml : String) (qms : List (Option (String × String)))
    (ks : List (String × String)) (n : String) : Option Nat :=
  lastQAux ml qms n none ks

/-- Some matching meat alias of name `n` carries a non-empty modifier dict. -/
def persHit (ml : String) (ks : List (String × String)) (n : String) : Bool :=
  ((mpair ml).1.isSome || (mpair ml).2.isSome) &&
    ks.any (fun kv => pyIn kv.1 ml && kv.2 == n && meatKey kv.1)

/-- An item that has already absorbed every write the direct-mention loop
would aim at its name. -/
def FixSpec (ml : String) (qms : List (Option (String × String)))
    (ks : List (String × String)) (it : OrderItem) : Prop :=
  (∀ q, lastMatchQ ml qms ks it.item = some q → it.quantity = q) ∧
  (persHit ml ks it.item = true → it.molho = (mpair ml).1 ∧ it.picante = (mpair ml).2)

/-- Every matching alias's canonical name is present. -/
def presAllProp (ml : String) (items : List OrderItem) : Prop :=
  ∀ kv ∈ menuItems, pyIn kv.1 ml = true → containsName kv.2 items = true

/-- Every resolvable portion capture's display name is present. -/
def portPresProp (p0 p1 : List String) (items : List OrderItem) : Prop :=
  (∀ b ∈ p0, ∀ name, portionResolve b = some name →
    containsName (portionFullName false name) items = true) ∧
  (∀ b ∈ p1, ∀ name, portionResolve b = some name →
    containsName (portionFullName true name) items = true)

/-! ### Basic preservation lemmas -/

theorem updateItem_item (n : String) (q : Nat) (p : Option String × Option String)
    (it : OrderItem) : (updateItem n q p it).item = it.item := by
  unfold updateItem; split <;> rfl

theorem itemStep_item (ml : String) (qms : List (Option (String × String)))
    (it : OrderItem) (kv : String × String) : (itemStep ml qms it kv).item = it.item := by
  unfold itemStep; split
  · exact updateItem_item _ _ _ _
  · rfl

theorem itemAll_item (ml : String) (qms : List (Option (String × String)))
    (ks : List (String × String)) (it : OrderItem) :
    (itemAll ml qms ks it).item = it.item := by
  induction ks generalizing it with
  | nil => rfl
  | cons kv ks ih =>
    show (itemAll ml qms ks (itemStep ml qms it kv)).item = it.item
    rw [ih, itemStep_item]

theorem broadStep_item (ml : String) (it : OrderItem) :
    (broadStep ml it).item = it.item := by
  unfold broadStep; split <;> rfl

theorem broadStep_quantity (ml : String) (it : OrderItem) :
    (broadStep ml it).quantity = it.quantity := by
  unfold broadStep; split <;> rfl

theorem containsName_iff (n : String) (items : List OrderItem) :
    containsName n items = true ↔ ∃ it ∈ items, it.item = n := by
  simp [containsName, List.any_eq_true]

theorem containsName_map_of_item_eq {f : OrderItem → OrderItem}
    (hf : ∀ it, (f it).item = it.item) (n : String) (items : List OrderItem) :
    containsName n (items.map f) = containsName n items := by
  simp [containsName, List.any_map, Function.comp_def, hf]

theorem containsName_append (n : String) (l₁ l₂ : List OrderItem) :
    containsName n (l₁ ++ l₂) = (containsName n l₁ || containsName n l₂) := by
  simp [containsName]

theorem containsName_directStep_mono (ml : String) (qms : List (Option (String × String)))
    (n : String) (items : List OrderItem) (kv : String × String)
    (h : containsName n items = true) :
    containsName n (directStep ml qms items kv) = true := by
  unfold directStep
  split
  · split
    · rwa [containsName_map_of_item_eq (fun it => updateItem_item _ _ _ it)]
    · rw [containsName_append, h, Bool.true_or]
  · exact h

theorem containsName_directStep_self (ml : String) (qms : List (Option (String × String)))
    (items : List OrderItem) (kv : String × String) (h : pyIn kv.1 ml = true) :
    containsName kv.2 (directStep ml qms items kv) = true := by
  unfold directStep
  rw [if_pos h]
  split
  · next hc =>
    rwa [containsName_map_of_item_eq (fun it => updateItem_item _ _ _ it)]
  · rw [containsName_append]
    simp [containsName]

theorem containsName_fold_mono (ml : String) (qms : List (Option (String × String)))
    (n : String) (ks : List (String × String)) (items : List OrderItem)
    (h : containsName n items = true) :
    containsName n (ks.foldl (directStep ml qms) items) = true := by
  induction ks generalizing items with
  | nil => exact h
  | cons kv ks ih => exact ih _ (containsName_directStep_mono ml qms n items kv h)

theorem containsName_fold_all (ml : String) (qms : List (Option (String × String)))
    (ks : List (String × String)) (items : List OrderItem) :
    ∀ kv ∈ ks, pyIn kv.1 ml = true →
      containsName kv.2 (ks.foldl (directStep ml qms) items) = true := by
  induction ks generalizing items with
  | nil => intro kv h; exact absurd h (List.not_mem_nil kv)
  | cons kv₀ ks ih =>
    intro kv hkv hpy
    rcases List.mem_cons.mp hkv with h | h
    · subst h
      exact containsName_fold_mono ml qms kv.2 ks _
        (containsName_directStep_self ml qms items kv hpy)
    · exact ih _ kv h hpy

/-! ### The direct-mention fold absorbed per item -/

theorem persOf_eq (ml key : String) :
    persOf ml key = if meatKey key then mpair ml else (none, none) := rfl

theorem matchedIn_cons (ml : String) (kv : String × String) (ks : List (String × String))
    (n : String) :
    matchedIn ml (kv :: ks) n = ((pyIn kv.1 ml && kv.2 == n) || matchedIn ml ks n) := by
  simp [matchedIn]

theorem lastQAux_of_nomatch (ml : String) (qms : List (Option (String × String)))
    (n : String) (ks : List (String × String)) (h : matchedIn ml ks n = false)
    (d : Option Nat) : lastQAux ml qms n d ks = d := by
  induction ks generalizing d with
  | nil => rfl
  | cons kv ks ih =>
    rw [matchedIn_cons] at h
    rcases Bool.or_eq_false_iff.mp h with ⟨h1, h2⟩
    rw [lastQAux, if_neg (by simp [h1]), ih h2]

theorem lastQAux_irrel (ml : String) (qms : List (Option (String × String)))
    (n : String) (ks : List (String × String)) (h : matchedIn ml ks n = true)
    (d₁ d₂ : Option Nat) : lastQAux ml qms n d₁ ks = lastQAux ml qms n d₂ ks := by
  induction ks generalizing d₁ d₂ with
  | nil => simp [matchedIn] at h
  | cons kv ks ih =>
    by_cases hc : (pyIn kv.1 ml && kv.2 == n) = true
    · rw [lastQAux, lastQAux, if_pos hc, if_pos hc]
    · rw [matchedIn_cons] at h
      rcases (Bool.or_eq_true _ _).mp h with h' | h'
      · exact absurd h' hc
      · rw [lastQAux, lastQAux]
        exact ih h' _ _

theorem persHit_mono_cons (ml : String) (kv : String × String)
    (ks : List (String × String)) (n : String) (h : persHit ml ks n = true) :
    persHit ml (kv :: ks) n = true := by
  simp only [persHit, Bool.and_eq_true, List.any_cons, Bool.or_eq_true] at h ⊢
  exact ⟨h.1, Or.inr h.2⟩

theorem itemStep_of_neg (ml : String) (qms : List (Option (String × String)))
    (it : OrderItem) (kv : String × String)
    (hc : (pyIn kv.1 ml && kv.2 == it.item) = false) : itemStep ml qms it kv = it := by
  unfold itemStep
  by_cases hpy : pyIn kv.1 ml = true
  · rw [if_pos hpy]
    have hb : (kv.2 == it.item) = false := by simpa [hpy] using hc
    unfold updateItem
    rw [if_neg]
    intro hcontra
    exact (beq_eq_false_iff_ne.mp hb) (eq_of_beq hcontra).symm
  · rw [if_neg hpy]

theorem itemStep_of_match (ml : String) (qms : List (Option (String × String)))
    (it : OrderItem) (kv : String × String) (hpy : pyIn kv.1 ml = true) :
    itemStep ml qms it kv = updateItem kv.2 (findQuantity qms kv.1) (persOf ml kv.1) it := by
  unfold itemStep; rw [if_pos hpy]

theorem itemAll_cons (ml : String) (qms : List (Option (String × String)))
    (kv : String × String) (ks : List (String × String)) (it : OrderItem) :
    itemAll ml qms (kv :: ks) it = itemAll ml qms ks (itemStep ml qms it kv) := rfl

theorem itemAll_of_nomatch (ml : String) (qms : List (Option (String × String)))
    (ks : List (String × String)) (it : OrderItem)
    (h : matchedIn ml ks it.item = false) : itemAll ml qms ks it = it := by
  induction ks generalizing it with
  | nil => rfl
  | cons kv ks ih =>
    rw [matchedIn_cons] at h
    rcases Bool.or_eq_false_iff.mp h with ⟨h1, h2⟩
    rw [itemAll_cons, itemStep_of_neg ml qms it kv h1, ih it h2]

theorem itemAll_congr_of_matched (ml : String) (qms : List (Option (String × String)))
    (ks : List (String × String)) (it it' : OrderItem)
    (hi : it.item = it'.item) (hm : it.molho = it'.molho) (hp : it.picante = it'.picante)
    (hmm : matchedIn ml ks it.item = true) :
    itemAll ml qms ks it = itemAll ml qms ks it' := by
  induction ks generalizing it it' with
  | nil => simp [matchedIn] at hmm
  | cons kv ks ih =>
    rw [itemAll_cons, itemAll_cons]
    by_cases hc : (pyIn kv.1 ml && kv.2 == it.item) = true
    · rcases Bool.and_eq_true_iff.mp hc with ⟨hpy, hn⟩
      rw [itemStep_of_match ml qms it kv hpy, itemStep_of_match ml qms it' kv hpy]
      have g1 : (it.item == kv.2) = true := beq_iff_eq.mpr (eq_of_beq hn).symm
      have g2 : (it'.item == kv.2) = true := beq_iff_eq.mpr (hi ▸ (eq_of_beq hn).symm)
      have : updateItem kv.2 (findQuantity qms kv.1) (persOf ml kv.1) it
          = updateItem kv.2 (findQuantity qms kv.1) (persOf ml kv.1) it' := by
        unfold updateItem
        rw [if_pos g1, if_pos g2]
        cases it; cases it'
        simp_all
      rw [this]
    · have hcf : (pyIn kv.1 ml && kv.2 == it.item) = false := by simpa using hc
      have hc' : (pyIn kv.1 ml && kv.2 == it'.item) = false := by rwa [← hi]
      rw [itemStep_of_neg ml qms it kv hcf, itemStep_of_neg ml qms it' kv hc']
      rw [matchedIn_cons] at hmm
      rcases (Bool.or_eq_true _ _).mp hmm with h' | h'
      · exact absurd h' hc
      · exact ih it it' hi hm hp h'

theorem fixSpec_cons_headfalse (ml : String) (qms : List (Option (String × String)))
    (kv : String × String) (ks : List (String × String)) (it : OrderItem)
    (hc : (pyIn kv.1 ml && kv.2 == it.item) = false)
    (h : FixSpec ml qms (kv :: ks) it) : FixSpec ml qms ks it := by
  refine ⟨fun q hq => h.1 q ?_, fun hp => h.2 (persHit_mono_cons ml kv ks it.item hp)⟩
  show lastQAux ml qms it.item none (kv :: ks) = some q
  rw [lastQAux, if_neg (by simp [hc])]
  exact hq

theorem fixSpec_cons_matchtail (ml : String) (qms : List (Option (String × String)))
    (kv : String × String) (ks : List (String × String)) (it : OrderItem)
    (hmm : matchedIn ml ks it.item = true)
    (h : FixSpec ml qms (kv :: ks) it) : FixSpec ml qms ks it := by
  refine ⟨fun q hq => h.1 q ?_, fun hp => h.2 (persHit_mono_cons ml kv ks it.item hp)⟩
  show lastQAux ml qms it.item none (kv :: ks) = some q
  rw [lastQAux]
  rw [lastQAux_irrel ml qms it.item ks hmm _ none]
  exact hq

theorem itemAll_of_fixSpec (ml : String) (qms : List (Option (String × String)))
    (ks : List (String × String)) (it : OrderItem)
    (h : FixSpec ml qms ks it) : itemAll ml qms ks it = it := by
  induction ks generalizing it with
  | nil => rfl
  | cons kv ks ih =>
    rw [itemAll_cons]
    by_cases hc : (pyIn kv.1 ml && kv.2 == it.item) = true
    · rcases Bool.and_eq_true_iff.mp hc with ⟨hpy, hn⟩
      rw [itemStep_of_match ml qms it kv hpy]
      have g1 : (it.item == kv.2) = true := beq_iff_eq.mpr (eq_of_beq hn).symm
      -- the personalisation write, when it happens, rewrites the current values
      have hpers : (if ((persOf ml kv.1).1.isSome || (persOf ml kv.1).2.isSome) = true
          then (persOf ml kv.1).1 else it.molho) = it.molho ∧
          (if ((persOf ml kv.1).1.isSome || (persOf ml kv.1).2.isSome) = true
          then (persOf ml kv.1).2 else it.picante) = it.picante := by
        by_cases pe : ((persOf ml kv.1).1.isSome || (persOf ml kv.1).2.isSome) = true
        · have hmeat : meatKey kv.1 = true := by
            by_contra hx
            rw [persOf_eq, if_neg hx] at pe
            simp at pe
          rw [persOf_eq, if_pos hmeat] at pe ⊢
          have hph : persHit ml (kv :: ks) it.item = true := by
            simp only [persHit, Bool.and_eq_true, List.any_cons, Bool.or_eq_true]
            exact ⟨(Bool.or_eq_true _ _).mp pe, Or.inl (by simp [hpy, hn, hmeat])⟩
          rcases h.2 hph with ⟨hm1, hm2⟩
          rw [if_pos pe, if_pos pe, ← hm1, ← hm2]
          exact ⟨rfl, rfl⟩
        · rw [if_neg pe, if_neg pe]
          exact ⟨rfl, rfl⟩
      have hu : updateItem kv.2 (findQuantity qms kv.1) (persOf ml kv.1) it
          = { it with quantity := findQuantity qms kv.1 } := by
        unfold updateItem
        rw [if_pos g1, hpers.1, hpers.2]
      rw [hu]
      by_cases hmm : matchedIn ml ks it.item = true
      · have : itemAll ml qms ks { it with quantity := findQuantity qms kv.1 }
            = itemAll ml qms ks it :=
          itemAll_congr_of_matched ml qms ks _ it rfl rfl rfl hmm
        rw [this]
        exact ih it (fixSpec_cons_matchtail ml qms kv ks it hmm h)
      · have hlast : lastMatchQ ml qms (kv :: ks) it.item = some (findQuantity qms kv.1) := by
          show lastQAux ml qms it.item none (kv :: ks) = _
          rw [lastQAux, if_pos (by simp [hpy, hn])]
          exact lastQAux_of_nomatch ml qms it.item ks (Bool.not_eq_true _ ▸ (by simpa using hmm)) _
        have hq : it.quantity = findQuantity qms kv.1 := h.1 _ hlast
        have : ({ it with quantity := findQuantity qms kv.1 } : OrderItem) = it := by
          rw [← hq]
        rw [this]
        exact itemAll_of_nomatch ml qms ks it (by simpa using hmm)
    · rw [itemStep_of_neg ml qms it kv (by simpa using hc)]
      exact ih it (fixSpec_cons_headfalse ml qms kv ks it (by simpa using hc) h)

theorem list_map_fix {α : Type} (f : α → α) :
    ∀ l : List α, (∀ x ∈ l, f x = x) → l.map f = l := by
  intro l
  induction l with
  | nil => intro _; rfl
  | cons x xs ih =>
    intro h
    rw [List.map_cons, h x (List.mem_cons_self x xs),
      ih (fun y hy => h y (List.mem_cons_of_mem x hy))]

theorem directStep_eq_map (ml : String) (qms : List (Option (String × String)))
    (items : List OrderItem) (kv : String × String)
    (h : pyIn kv.1 ml = true → containsName kv.2 items = true) :
    directStep ml qms items kv = items.map (fun it => itemStep ml qms it kv) := by
  by_cases hpy : pyIn kv.1 ml = true
  · have hcon : (items.any fun it => it.item == kv.2) = true := h hpy
    unfold directStep
    rw [if_pos hpy, if_pos hcon]
    apply congrArg (items.map ·) ?_ |>.symm
    funext it
    exact itemStep_of_match ml qms it kv hpy
  · have hpyf : pyIn kv.1 ml = false := by simpa using hpy
    unfold directStep
    rw [if_neg hpy]
    have hfun : (fun it => itemStep ml qms it kv) = fun it => it := by
      funext it
      exact itemStep_of_neg ml qms it kv (by simp [hpyf])
    rw [hfun, List.map_id']

theorem fold_eq_map (ml : String) (qms : List (Option (String × String))) :
    ∀ (ks : List (String × String)) (items : List OrderItem),
    (∀ kv ∈ ks, pyIn kv.1 ml = true → containsName kv.2 items = true) →
    ks.foldl (directStep ml qms) items = items.map (itemAll ml qms ks) := by
  intro ks
  induction ks with
  | nil =>
    intro items _
    exact (list_map_fix _ items (fun x _ => rfl)).symm
  | cons kv ks ih =>
    intro items h
    rw [List.foldl_cons,
      directStep_eq_map ml qms items kv (h kv (List.mem_cons_self kv ks)),
      ih _ (fun kv' hkv' hpy' => by
        rw [containsName_map_of_item_eq (fun it => itemStep_item ml qms it kv)]
        exact h kv' (List.mem_cons_of_mem kv hkv') hpy'),
      List.map_map]
    rfl

theorem directStep_quantity_self (ml : String) (qms : List (Option (String × String)))
    (y : List OrderItem) (kv : String × String) (hpy : pyIn kv.1 ml = true) :
    ∀ it' ∈ directStep ml qms y kv, it'.item = kv.2 →
      it'.quantity = findQuantity qms kv.1 := by
  intro it' hmem hname
  unfold directStep at hmem
  rw [if_pos hpy] at hmem
  by_cases hcon : (y.any fun it => it.item == kv.2) = true
  · rw [if_pos hcon] at hmem
    rcases List.mem_map.mp hmem with ⟨u, _, rfl⟩
    by_cases hg : (u.item == kv.2) = true
    · show (updateItem _ _ _ u).quantity = _
      unfold updateItem
      rw [if_pos hg]
    · have heq : updateItem kv.2 (findQuantity qms kv.1) (persOf ml kv.1) u = u := by
        unfold updateItem; rw [if_neg hg]
      rw [heq] at hname
      exact absurd (beq_iff_eq.mpr hname) hg
  · rw [if_neg hcon] at hmem
    rcases List.mem_append.mp hmem with hy | hs
    · exact absurd (show (y.any fun it => it.item == kv.2) = true from
        List.any_eq_true.mpr ⟨it', hy, beq_iff_eq.mpr hname⟩) hcon
    · rw [List.mem_singleton.mp hs]

theorem directStep_pers_self (ml : String) (qms : List (Option (String × String)))
    (y : List OrderItem) (kv : String × String) (hpy : pyIn kv.1 ml = true)
    (hmeat : meatKey kv.1 = true)
    (hne : ((mpair ml).1.isSome || (mpair ml).2.isSome) = true) :
    ∀ it' ∈ directStep ml qms y kv, it'.item = kv.2 →
      it'.molho = (mpair ml).1 ∧ it'.picante = (mpair ml).2 := by
  intro it' hmem hname
  have hpv : persOf ml kv.1 = mpair ml := by rw [persOf_eq, if_pos hmeat]
  unfold directStep at hmem
  rw [if_pos hpy] at hmem
  by_cases hcon : (y.any fun it => it.item == kv.2) = true
  · rw [if_pos hcon] at hmem
    rcases List.mem_map.mp hmem with ⟨u, _, rfl⟩
    by_cases hg : (u.item == kv.2) = true
    · show (updateItem _ _ _ u).molho = _ ∧ (updateItem _ _ _ u).picante = _
      unfold updateItem
      rw [if_pos hg, hpv]
      rw [if_pos hne, if_pos hne]
      exact ⟨rfl, rfl⟩
    · have heq : updateItem kv.2 (findQuantity qms kv.1) (persOf ml kv.1) u = u := by
        unfold updateItem; rw [if_neg hg]
      rw [heq] at hname
      exact absurd (beq_iff_eq.mpr hname) hg
  · rw [if_neg hcon] at hmem
    rcases List.mem_append.mp hmem with hy | hs
    · exact absurd (show (y.any fun it => it.item == kv.2) = true from
        List.any_eq_true.mpr ⟨it', hy, beq_iff_eq.mpr hname⟩) hcon
    · rw [List.mem_singleton.mp hs]
      constructor
      · show (persOf ml kv.1).1 = _
        rw [hpv]
      · show (persOf ml kv.1).2 = _
        rw [hpv]

theorem directStep_qpres (ml : String) (qms : List (Option (String × String)))
    (y : List OrderItem) (kv : String × String) (n : String) (q : Nat)
    (hc : (pyIn kv.1 ml && kv.2 == n) = false)
    (h : ∀ it ∈ y, it.item = n → it.quantity = q) :
    ∀ it' ∈ directStep ml qms y kv, it'.item = n → it'.quantity = q := by
  intro it' hmem hname
  unfold directStep at hmem
  by_cases hpy : pyIn kv.1 ml = true
  · rw [if_pos hpy] at hmem
    have hkn : kv.2 ≠ n := beq_eq_false_iff_ne.mp (by simpa [hpy] using hc)
    by_cases hcon : (y.any fun it => it.item == kv.2) = true
    · rw [if_pos hcon] at hmem
      rcases List.mem_map.mp hmem with ⟨u, hu, rfl⟩
      by_cases hg : (u.item == kv.2) = true
      · have : (updateItem kv.2 (findQuantity qms kv.1) (persOf ml kv.1) u).item = u.item :=
          updateItem_item _ _ _ _
        rw [this] at hname
        exact absurd ((eq_of_beq hg).symm.trans hname) hkn
      · have heq : updateItem kv.2 (findQuantity qms kv.1) (persOf ml kv.1) u = u := by
          unfold updateItem; rw [if_neg hg]
        rw [heq] at hname ⊢
        exact h u hu hname
    · rw [if_neg hcon] at hmem
      rcases List.mem_append.mp hmem with hy | hs
      · exact h it' hy hname
      · rw [List.mem_singleton.mp hs] at hname
        exact absurd hname hkn
  · rw [if_neg hpy] at hmem
    exact h it' hmem hname

theorem fold_qpres (ml : String) (qms : List (Option (String × String)))
    (n : String) (q : Nat) :
    ∀ (ks : List (String × String)) (y : List OrderItem),
    matchedIn ml ks n = false →
    (∀ it ∈ y, it.item = n → it.quantity = q) →
    ∀ it' ∈ ks.foldl (directStep ml qms) y, it'.item = n → it'.quantity = q := by
  intro ks
  induction ks with
  | nil => intro y _ h; exact h
  | cons kv ks ih =>
    intro y hm h
    rw [matchedIn_cons] at hm
    rcases Bool.or_eq_false_iff.mp hm with ⟨h1, h2⟩
    rw [List.foldl_cons]
    exact ih _ h2 (directStep_qpres ml qms y kv n q h1 h)

theorem directStep_ppres (ml : String) (qms : List (Option (String × String)))
    (y : List OrderItem) (kv : String × String) (n : String)
    (hcy : containsName n y = true)
    (h : ∀ it ∈ y, it.item = n → it.molho = (mpair ml).1 ∧ it.picante = (mpair ml).2) :
    ∀ it' ∈ directStep ml qms y kv, it'.item = n →
      it'.molho = (mpair ml).1 ∧ it'.picante = (mpair ml).2 := by
  intro it' hmem hname
  unfold directStep at hmem
  by_cases hpy : pyIn kv.1 ml = true
  · rw [if_pos hpy] at hmem
    by_cases hcon : (y.any fun it => it.item == kv.2) = true
    · rw [if_pos hcon] at hmem
      rcases List.mem_map.mp hmem with ⟨u, hu, rfl⟩
      by_cases hg : (u.item == kv.2) = true
      · have hni : (updateItem kv.2 (findQuantity qms kv.1) (persOf ml kv.1) u).item = u.item :=
          updateItem_item _ _ _ _
        rw [hni] at hname
        rcases h u hu hname with ⟨hm1, hm2⟩
        show (updateItem _ _ _ u).molho = _ ∧ (updateItem _ _ _ u).picante = _
        unfold updateItem
        rw [if_pos hg]
        by_cases hmeat : meatKey kv.1 = true
        · have hpv : persOf ml kv.1 = mpair ml := by rw [persOf_eq, if_pos hmeat]
          rw [hpv]
          by_cases hne : ((mpair ml).1.isSome || (mpair ml).2.isSome) = true
          · rw [if_pos hne, if_pos hne]; exact ⟨rfl, rfl⟩
          · rw [if_neg hne, if_neg hne]; exact ⟨hm1, hm2⟩
        · have hpv : persOf ml kv.1 = (none, none) := by
            rw [persOf_eq, if_neg hmeat]
          rw [hpv]
          simp only [Option.isSome_none, Bool.or_self, Bool.false_eq_true, if_false]
          exact ⟨hm1, hm2⟩
      · have heq : updateItem kv.2 (findQuantity qms kv.1) (persOf ml kv.1) u = u := by
          unfold updateItem; rw [if_neg hg]
        rw [heq] at hname ⊢
        exact h u hu hname
    · rw [if_neg hcon] at hmem
      rcases List.mem_append.mp hmem with hy | hs
      · exact h it' hy hname
      · exfalso
        rw [List.mem_singleton.mp hs] at hname
        have hn2 : kv.2 = n := hname
        have : containsName kv.2 y = true := by rw [hn2]; exact hcy
        exact absurd this (by simpa [containsName] using hcon)
  · rw [if_neg hpy] at hmem
    exact h it' hmem hname

theorem fold_ppres (ml : String) (qms : List (Option (String × String))) (n : String) :
    ∀ (ks : List (String × String)) (y : List OrderItem),
    containsName n y = true →
    (∀ it ∈ y, it.item = n → it.molho = (mpair ml).1 ∧ it.picante = (mpair ml).2) →
    ∀ it' ∈ ks.foldl (directStep ml qms) y, it'.item = n →
      it'.molho = (mpair ml).1 ∧ it'.picante = (mpair ml).2 := by
  intro ks
  induction ks with
  | nil => intro y _ h; exact h
  | cons kv ks ih =>
    intro y hcy h
    rw [List.foldl_cons]
    exact ih _ (containsName_directStep_mono ml qms n y kv hcy)
      (directStep_ppres ml qms y kv n hcy h)

theorem lastMatchQ_cons (ml : String) (qms : List (Option (String × String)))
    (kv : String × String) (ks : List (String × String)) (n : String) :
    lastMatchQ ml qms (kv :: ks) n =
      lastQAux ml qms n
        (if pyIn kv.1 ml && kv.2 == n then some (findQuantity qms kv.1) else none) ks := rfl

theorem fold_fixSpec (ml : String) (qms : List (Option (String × String))) :
    ∀ (ks : List (String × String)) (y : List OrderItem) (it : OrderItem),
    it ∈ ks.foldl (directStep ml qms) y → FixSpec ml qms ks it := by
  intro ks
  induction ks with
  | nil =>
    intro y it _
    constructor
    · intro q hq
      exact absurd hq (by simp [lastMatchQ, lastQAux])
    · intro hp
      exact absurd hp (by simp [persHit])
  | cons kv ks ih =>
    intro y it hmem
    rw [List.foldl_cons] at hmem
    have base := ih (directStep ml qms y kv) it hmem
    constructor
    · intro q hq
      by_cases hc : (pyIn kv.1 ml && kv.2 == it.item) = true
      · rcases Bool.and_eq_true_iff.mp hc with ⟨hpy, hn⟩
        by_cases hmm : matchedIn ml ks it.item = true
        · apply base.1 q
          show lastQAux ml qms it.item none ks = some q
          rw [lastMatchQ_cons, if_pos hc] at hq
          rw [lastQAux_irrel ml qms it.item ks hmm none (some (findQuantity qms kv.1))]
          exact hq
        · have hmm' : matchedIn ml ks it.item = false := by simpa using hmm
          rw [lastMatchQ_cons, if_pos hc, lastQAux_of_nomatch ml qms it.item ks hmm'] at hq
          have hq' : findQuantity qms kv.1 = q := Option.some.inj hq
          subst hq'
          have hn' : kv.2 = it.item := eq_of_beq hn
          apply fold_qpres ml qms it.item (findQuantity qms kv.1) ks
            (directStep ml qms y kv) hmm' ?_ it hmem rfl
          intro u hu hui
          exact directStep_quantity_self ml qms y kv hpy u hu (hui.trans hn'.symm)
      · apply base.1 q
        show lastQAux ml qms it.item none ks = some q
        rw [lastMatchQ_cons,
          if_neg (by simp [(by simpa using hc : (pyIn kv.1 ml && kv.2 == it.item) = false)])] at hq
        exact hq
    · intro hp
      simp only [persHit, Bool.and_eq_true, List.any_cons, Bool.or_eq_true] at hp
      rcases hp with ⟨hne, hw⟩
      have hneB : ((mpair ml).1.isSome || (mpair ml).2.isSome) = true :=
        (Bool.or_eq_true _ _).mpr hne
      rcases hw with hhead | htail
      · obtain ⟨⟨hpy, hn⟩, hmeat⟩ := hhead
        have hn' : kv.2 = it.item := eq_of_beq hn
        apply fold_ppres ml qms it.item ks (directStep ml qms y kv) ?_ ?_ it hmem rfl
        · rw [← hn']
          exact containsName_directStep_self ml qms y kv hpy
        · intro u hu hui
          exact directStep_pers_self ml qms y kv hpy hmeat hneB u hu (hui.trans hn'.symm)
      · apply base.2
        simp only [persHit, Bool.and_eq_true]
        exact ⟨hneB, htail⟩

/-! ### Portion and broad-modifier phases -/

theorem portionStep_none (isHalf : Bool) (items : List OrderItem) (b : String)
    (h : portionResolve b = none) : portionStep isHalf items b = items := by
  unfold portionStep
  rw [h]

theorem portionStep_some_present (isHalf : Bool) (items : List OrderItem) (b name : String)
    (hres : portionResolve b = some name)
    (hcon : (items.any fun it => it.item == portionFullName isHalf name) = true) :
    portionStep isHalf items b = items := by
  unfold portionStep
  rw [hres]
  show (if (items.any fun it => it.item == portionFullName isHalf name) = true
    then items else _) = items
  rw [if_pos hcon]

theorem portionStep_some_absent (isHalf : Bool) (items : List OrderItem) (b name : String)
    (hres : portionResolve b = some name)
    (hcon : (items.any fun it => it.item == portionFullName isHalf name) = false) :
    portionStep isHalf items b = items ++
      [{ item := portionFullName isHalf name, quantity := 1,
         molho := none, picante := none }] := by
  unfold portionStep
  rw [hres]
  show (if (items.any fun it => it.item == portionFullName isHalf name) = true
    then items else _) = _
  rw [if_neg (by simp [hcon])]

theorem containsName_portionStep_mono (isHalf : Bool) (n : String)
    (items : List OrderItem) (b : String) (h : containsName n items = true) :
    containsName n (portionStep isHalf items b) = true := by
  cases hres : portionResolve b with
  | none => rw [portionStep_none isHalf items b hres]; exact h
  | some name =>
    cases hcon : (items.any fun it => it.item == portionFullName isHalf name) with
    | true => rw [portionStep_some_present isHalf items b name hres hcon]; exact h
    | false =>
      rw [portionStep_some_absent isHalf items b name hres hcon,
        containsName_append, h, Bool.true_or]

theorem containsName_portionFold_mono (isHalf : Bool) (n : String) :
    ∀ (bases : List String) (items : List OrderItem), containsName n items = true →
    containsName n (bases.foldl (portionStep isHalf) items) = true := by
  intro bases
  induction bases with
  | nil => intro items h; exact h
  | cons b bases ih =>
    intro items h
    exact ih _ (containsName_portionStep_mono isHalf n items b h)

theorem portionStep_presSelf (isHalf : Bool) (items : List OrderItem) (b : String)
    (name : String) (hres : portionResolve b = some name) :
    containsName (portionFullName isHalf name) (portionStep isHalf items b) = true := by
  cases hcon : (items.any fun it => it.item == portionFullName isHalf name) with
  | true => rw [portionStep_some_present isHalf items b name hres hcon]; exact hcon
  | false =>
    rw [portionStep_some_absent isHalf items b name hres hcon, containsName_append]
    simp [containsName]

theorem portionFold_presAll (isHalf : Bool) :
    ∀ (bases : List String) (items : List OrderItem),
    ∀ b ∈ bases, ∀ name, portionResolve b = some name →
    containsName (portionFullName isHalf name) (bases.foldl (portionStep isHalf) items) = true := by
  intro bases
  induction bases with
  | nil => intro items b hb; exact absurd hb (List.not_mem_nil b)
  | cons b₀ bases ih =>
    intro items b hb name hres
    rcases List.mem_cons.mp hb with h | h
    · subst h
      exact containsName_portionFold_mono isHalf _ bases _
        (portionStep_presSelf isHalf items b name hres)
    · exact ih _ b h name hres

theorem portionStep_id (isHalf : Bool) (items : List OrderItem) (b : String)
    (h : ∀ name, portionResolve b = some name →
      containsName (portionFullName isHalf name) items = true) :
    portionStep isHalf items b = items := by
  cases hres : portionResolve b with
  | none => exact portionStep_none isHalf items b hres
  | some name => exact portionStep_some_present isHalf items b name hres (h name hres)

theorem portionFold_id (isHalf : Bool) :
    ∀ (bases : List String) (items : List OrderItem),
    (∀ b ∈ bases, ∀ name, portionResolve b = some name →
      containsName (portionFullName isHalf name) items = true) →
    bases.foldl (portionStep isHalf) items = items := by
  intro bases
  induction bases with
  | nil => intro items _; rfl
  | cons b bases ih =>
    intro items h
    rw [List.foldl_cons, portionStep_id isHalf items b (h b (List.mem_cons_self b bases)),
      ih items (fun b' hb' => h b' (List.mem_cons_of_mem b hb'))]

theorem portionPhase_id (p0 p1 : List String) (items : List OrderItem)
    (h : portPresProp p0 p1 items) : portionPhase p0 p1 items = items := by
  unfold portionPhase
  rw [portionFold_id false p0 items h.1, portionFold_id true p1 items h.2]

theorem containsName_broadPhase (ml : String) (n : String) (items : List OrderItem) :
    containsName n (broadPhase ml items) = containsName n items :=
  containsName_map_of_item_eq (fun it => broadStep_item ml it) n items

theorem portPres_portionPhase (p0 p1 : List String) (items : List OrderItem) :
    portPresProp p0 p1 (portionPhase p0 p1 items) := by
  constructor
  · intro b hb name hres
    exact containsName_portionFold_mono true _ p1 _
      (portionFold_presAll false p0 items b hb name hres)
  · intro b hb name hres
    exact portionFold_presAll true p1 _ b hb name hres

theorem portPres_broadPhase (ml : String) (p0 p1 : List String) (items : List OrderItem)
    (h : portPresProp p0 p1 items) : portPresProp p0 p1 (broadPhase ml items) := by
  refine ⟨fun b hb name hres => ?_, fun b hb name hres => ?_⟩
  · rw [containsName_broadPhase]; exact h.1 b hb name hres
  · rw [containsName_broadPhase]; exact h.2 b hb name hres

theorem broadStep_idem (ml : String) (it : OrderItem) :
    broadStep ml (broadStep ml it) = broadStep ml it := by
  unfold broadStep
  by_cases hm : meatCapName it.item = true
  · rw [if_pos hm]
    rw [if_pos (show meatCapName ({ it with
        molho := match it.molho with
          | some v => some v
          | none => molhosList.find? (fun m => pyIn m ml),
        picante := match it.picante with
          | some v => some v
          | none => picanteList.find? (fun p => pyIn p ml) } : OrderItem).item = true from hm)]
    cases hmo : it.molho <;> cases hpi : it.picante <;>
      cases hf1 : molhosList.find? (fun m => pyIn m ml) <;>
      cases hf2 : picanteList.find? (fun p => pyIn p ml) <;> simp_all
  · rw [if_neg hm, if_neg hm]

theorem broadPhase_idem (ml : String) (items : List OrderItem) :
    broadPhase ml (broadPhase ml items) = broadPhase ml items := by
  unfold broadPhase
  rw [List.map_map]
  have : broadStep ml ∘ broadStep ml = broadStep ml := funext fun it => broadStep_idem ml it
  rw [this]

/-! ### `FixSpec` through the portion and broad phases -/

theorem presAll_portionStep (ml : String) (isHalf : Bool) (items : List OrderItem)
    (b : String) (h : presAllProp ml items) : presAllProp ml (portionStep isHalf items b) :=
  fun kv hkv hpy => containsName_portionStep_mono isHalf kv.2 items b (h kv hkv hpy)

theorem presAll_portionFold (ml : String) (isHalf : Bool) :
    ∀ (bases : List String) (items : List OrderItem), presAllProp ml items →
    presAllProp ml (bases.foldl (portionStep isHalf) items) := by
  intro bases
  induction bases with
  | nil => intro items h; exact h
  | cons b bases ih =>
    intro items h
    exact ih _ (presAll_portionStep ml isHalf items b h)

theorem portionStep_fixSpec (ml : String) (qms : List (Option (String × String)))
    (isHalf : Bool) (z : List OrderItem) (b : String)
    (hpres : presAllProp ml z) (hfix : ∀ it ∈ z, FixSpec ml qms menuItems it) :
    ∀ it' ∈ portionStep isHalf z b, FixSpec ml qms menuItems it' := by
  intro it' hmem
  cases hres : portionResolve b with
  | none => rw [portionStep_none isHalf z b hres] at hmem; exact hfix it' hmem
  | some name =>
    cases hcon : (z.any fun it => it.item == portionFullName isHalf name) with
    | true =>
      rw [portionStep_some_present isHalf z b name hres hcon] at hmem
      exact hfix it' hmem
    | false =>
      rw [portionStep_some_absent isHalf z b name hres hcon] at hmem
      rcases List.mem_append.mp hmem with hy | hs
      · exact hfix it' hy
      · rw [List.mem_singleton.mp hs]
        have hnm : matchedIn ml menuItems (portionFullName isHalf name) = false := by
          by_contra hx
          have hx' : matchedIn ml menuItems (portionFullName isHalf name) = true := by
            simpa using hx
          rcases List.any_eq_true.mp hx' with ⟨kv, hkv, hcond⟩
          rcases Bool.and_eq_true_iff.mp hcond with ⟨hpy, hn⟩
          have hc2 := hpres kv hkv hpy
          rw [eq_of_beq hn] at hc2
          have hc3 : (z.any fun it => it.item == portionFullName isHalf name) = true := hc2
          rw [hc3] at hcon
          cases hcon
        constructor
        · intro q hq
          have h0 : lastMatchQ ml qms menuItems (portionFullName isHalf name) = none :=
            lastQAux_of_nomatch ml qms _ menuItems hnm none
          have hq' : lastMatchQ ml qms menuItems (portionFullName isHalf name) = some q := hq
          rw [h0] at hq'
          cases hq'
        · intro hp
          have hp' : persHit ml menuItems (portionFullName isHalf name) = true := hp
          exfalso
          simp only [persHit, Bool.and_eq_true] at hp'
          rcases List.any_eq_true.mp hp'.2 with ⟨kv, hkv, hcond⟩
          have hx : matchedIn ml menuItems (portionFullName isHalf name) = true :=
            List.any_eq_true.mpr ⟨kv, hkv,
              (Bool.and_eq_true_iff.mp hcond).1⟩
          rw [hx] at hnm
          cases hnm

theorem portionFold_fixSpec (ml : String) (qms : List (Option (String × String)))
    (isHalf : Bool) :
    ∀ (bases : List String) (z : List OrderItem),
    presAllProp ml z → (∀ it ∈ z, FixSpec ml qms menuItems it) →
    ∀ it' ∈ bases.foldl (portionStep isHalf) z, FixSpec ml qms menuItems it' := by
  intro bases
  induction bases with
  | nil => intro z _ hfix; exact hfix
  | cons b bases ih =>
    intro z hpres hfix
    exact ih _ (presAll_portionStep ml isHalf z b hpres)
      (portionStep_fixSpec ml qms isHalf z b hpres hfix)

theorem broadStep_fixSpec (ml : String) (qms : List (Option (String × String)))
    (it : OrderItem) (h : FixSpec ml qms menuItems it) :
    FixSpec ml qms menuItems (broadStep ml it) := by
  constructor
  · intro q hq
    rw [broadStep_item] at hq
    rw [broadStep_quantity]
    exact h.1 q hq
  · intro hp
    rw [broadStep_item] at hp
    rcases h.2 hp with ⟨hm1, hm2⟩
    unfold broadStep
    by_cases hm : meatCapName it.item = true
    · rw [if_pos hm]
      constructor
      · show (match it.molho with
          | some v => some v
          | none => molhosList.find? (fun m => pyIn m ml)) = (mpair ml).1
        cases hmo : it.molho with
        | some v => rw [hmo] at hm1; exact hm1
        | none => rfl
      · show (match it.picante with
          | some v => some v
          | none => picanteList.find? (fun p => pyIn p ml)) = (mpair ml).2
        cases hpi : it.picante with
        | some v => rw [hpi] at hm2; exact hm2
        | none => rfl
    · rw [if_neg hm]
      exact ⟨hm1, hm2⟩

theorem broadPhase_fixSpec (ml : String) (qms : List (Option (String × String)))
    (items : List OrderItem) (h : ∀ it ∈ items, FixSpec ml qms menuItems it) :
    ∀ it' ∈ broadPhase ml items, FixSpec ml qms menuItems it' := by
  intro it' hmem
  rcases List.mem_map.mp hmem with ⟨u, hu, rfl⟩
  exact broadStep_fixSpec ml qms u (h u hu)

theorem presAll_broadPhase (ml : String) (items : List OrderItem)
    (h : presAllProp ml items) : presAllProp ml (broadPhase ml items) :=
  fun kv hkv hpy => by rw [containsName_broadPhase]; exact h kv hkv hpy

/-! ### Idempotence of the whole item pipeline -/

/-- The full item-update pipeline of one `_extract_order_details` call. -/
def itemsPipeline (ml : String) (qms : List (Option (String × String)))
    (p0 p1 : List String) (isUser : Bool) (items : List OrderItem) : List OrderItem :=
  broadPhase ml (portionPhase p0 p1 (if isUser then directPhase ml qms items else items))

theorem itemsPipeline_presAll (ml : String) (qms : List (Option (String × String)))
    (p0 p1 : List String) (z : List OrderItem) :
    presAllProp ml (itemsPipeline ml qms p0 p1 true z) := by
  unfold itemsPipeline portionPhase directPhase
  rw [if_pos rfl]
  apply presAll_broadPhase
  apply presAll_portionFold
  apply presAll_portionFold
  intro kv hkv hpy
  exact containsName_fold_all ml qms menuItems z kv hkv hpy

theorem itemsPipeline_fixSpec (ml : String) (qms : List (Option (String × String)))
    (p0 p1 : List String) (z : List OrderItem) :
    ∀ it ∈ itemsPipeline ml qms p0 p1 true z, FixSpec ml qms menuItems it := by
  unfold itemsPipeline portionPhase directPhase
  rw [if_pos rfl]
  apply broadPhase_fixSpec
  apply portionFold_fixSpec
  · apply presAll_portionFold
    intro kv hkv hpy
    exact containsName_fold_all ml qms menuItems z kv hkv hpy
  · apply portionFold_fixSpec
    · intro kv hkv hpy
      exact containsName_fold_all ml qms menuItems z kv hkv hpy
    · intro it hmem
      exact fold_fixSpec ml qms menuItems z it hmem

theorem itemsPipeline_portPres (ml : String) (qms : List (Option (String × String)))
    (p0 p1 : List String) (u : Bool) (z : List OrderItem) :
    portPresProp p0 p1 (itemsPipeline ml qms p0 p1 u z) := by
  unfold itemsPipeline
  exact portPres_broadPhase ml p0 p1 _ (portPres_portionPhase p0 p1 _)

theorem itemsPipeline_idem (ml : String) (qms : List (Option (String × String)))
    (p0 p1 : List String) (u : Bool) (z : List OrderItem) :
    itemsPipeline ml qms p0 p1 u (itemsPipeline ml qms p0 p1 u z) =
      itemsPipeline ml qms p0 p1 u z := by
  have hport : portPresProp p0 p1 (itemsPipeline ml qms p0 p1 u z) :=
    itemsPipeline_portPres ml qms p0 p1 u z
  have hbroad : broadPhase ml (itemsPipeline ml qms p0 p1 u z) =
      itemsPipeline ml qms p0 p1 u z := by
    unfold itemsPipeline
    exact broadPhase_idem ml _
  cases u with
  | false =>
    show broadPhase ml (portionPhase p0 p1 (itemsPipeline ml qms p0 p1 false z)) = _
    rw [portionPhase_id p0 p1 _ hport, hbroad]
  | true =>
    have hD : directPhase ml qms (itemsPipeline ml qms p0 p1 true z) =
        itemsPipeline ml qms p0 p1 true z := by
      unfold directPhase
      rw [fold_eq_map ml qms menuItems _
        (fun kv hkv hpy => itemsPipeline_presAll ml qms p0 p1 z kv hkv hpy)]
      exact list_map_fix _ _ (fun it hmem =>
        itemAll_of_fixSpec ml qms menuItems it
          (itemsPipeline_fixSpec ml qms p0 p1 z it hmem))
    show broadPhase ml (portionPhase p0 p1
      (directPhase ml qms (itemsPipeline ml qms p0 p1 true z))) = _
    rw [hD, portionPhase_id p0 p1 _ hport, hbroad]

/-! ### Projection lemmas and positional (`get?`) tracking -/

theorem OrderDetails.ext' (a b : OrderDetails) (h1 : a.customer_name = b.customer_name)
    (h2 : a.pickup_time = b.pickup_time) (h3 : a.items = b.items) : a = b := by
  cases a; cases b; simp_all

theorem extract_name (msg : String) (a : TextAnalysis) (u : Bool) (od : OrderDetails) :
    (extractOrderDetails msg a u od).customer_name =
      (match od.customer_name with
       | some n => some n
       | none => extractName a.nameMatches) := rfl

theorem extract_time (msg : String) (a : TextAnalysis) (u : Bool) (od : OrderDetails) :
    (extractOrderDetails msg a u od).pickup_time =
      (match od.pickup_time with
       | some t => some t
       | none => extractTime a.timeMatches) := rfl

theorem extract_items (msg : String) (a : TextAnalysis) (u : Bool) (od : OrderDetails) :
    (extractOrderDetails msg a u od).items =
      itemsPipeline (pyLower msg) a.quantityMatches a.portionFull a.portionHalf u od.items := rfl

theorem get?_append_of_some {α : Type} (y zs : List α) (i : Nat) (x : α)
    (h : y.get? i = some x) : (y ++ zs).get? i = some x := by
  rcases List.get?_eq_some.mp h with ⟨hlt, _⟩
  rw [List.get?_append hlt]
  exact h

theorem directStep_get (ml : String) (qms : List (Option (String × String)))
    (y : List OrderItem) (kv : String × String) (i : Nat) (it : OrderItem)
    (h : y.get? i = some it) :
    (directStep ml qms y kv).get? i = some (itemStep ml qms it kv) := by
  by_cases hpy : pyIn kv.1 ml = true
  · unfold directStep
    rw [if_pos hpy, itemStep_of_match ml qms it kv hpy]
    by_cases hcon : (y.any fun it => it.item == kv.2) = true
    · rw [if_pos hcon, List.get?_map, h]
      rfl
    · rw [if_neg hcon]
      have hne : updateItem kv.2 (findQuantity qms kv.1) (persOf ml kv.1) it = it := by
        unfold updateItem
        rw [if_neg (fun hg => hcon (List.any_eq_true.mpr ⟨it, List.get?_mem h, hg⟩))]
      rw [hne]
      exact get?_append_of_some _ _ _ _ h
  · unfold directStep
    rw [if_neg hpy,
      itemStep_of_neg ml qms it kv (by simp [(by simpa using hpy : pyIn kv.1 ml = false)])]
    exact h

theorem fold_get (ml : String) (qms : List (Option (String × String))) :
    ∀ (ks : List (String × String)) (y : List OrderItem) (i : Nat) (it : OrderItem),
    y.get? i = some it →
    (ks.foldl (directStep ml qms) y).get? i = some (itemAll ml qms ks it) := by
  intro ks
  induction ks with
  | nil => intro y i it h; exact h
  | cons kv ks ih =>
    intro y i it h
    rw [List.foldl_cons, itemAll_cons]
    exact ih _ i _ (directStep_get ml qms y kv i it h)

theorem portionStep_get (isHalf : Bool) (z : List OrderItem) (b : String) (i : Nat)
    (it : OrderItem) (h : z.get? i = some it) :
    (portionStep isHalf z b).get? i = some it := by
  cases hres : portionResolve b with
  | none => rw [portionStep_none isHalf z b hres]; exact h
  | some name =>
    cases hcon : (z.any fun it => it.item == portionFullName isHalf name) with
    | true => rw [portionStep_some_present isHalf z b name hres hcon]; exact h
    | false =>
      rw [portionStep_some_absent isHalf z b name hres hcon]
      exact get?_append_of_some _ _ _ _ h

theorem portionFold_get (isHalf : Bool) :
    ∀ (bases : List String) (z : List OrderItem) (i : Nat) (it : OrderItem),
    z.get? i = some it →
    (bases.foldl (portionStep isHalf) z).get? i = some it := by
  intro bases
  induction bases with
  | nil => intro z i it h; exact h
  | cons b bases ih =>
    intro z i it h
    rw [List.foldl_cons]
    exact ih _ i it (portionStep_get isHalf z b i it h)

theorem portionPhase_get (p0 p1 : List String) (z : List OrderItem) (i : Nat)
    (it : OrderItem) (h : z.get? i = some it) :
    (portionPhase p0 p1 z).get? i = some it := by
  unfold portionPhase
  exact portionFold_get true p1 _ i it (portionFold_get false p0 z i it h)

theorem broadPhase_get (ml : String) (z : List OrderItem) (i : Nat) (it : OrderItem)
    (h : z.get? i = some it) :
    (broadPhase ml z).get? i = some (broadStep ml it) := by
  unfold broadPhase
  rw [List.get?_map, h]
  rfl

/-! ### No-match identity lemmas -/

theorem fold_id_of_nokeys (ml : String) (qms : List (Option (String × String))) :
    ∀ (ks : List (String × String)) (y : List OrderItem),
    (∀ kv ∈ ks, pyIn kv.1 ml = false) →
    ks.foldl (directStep ml qms) y = y := by
  intro ks
  induction ks with
  | nil => intro y _; rfl
  | cons kv ks ih =>
    intro y h
    rw [List.foldl_cons]
    have hstep : directStep ml qms y kv = y := by
      unfold directStep
      rw [if_neg (by simp [h kv (List.mem_cons_self kv ks)])]
    rw [hstep]
    exact ih y (fun kv' hkv' => h kv' (List.mem_cons_of_mem kv hkv'))

theorem portionFold_id_noresolve (isHalf : Bool) :
    ∀ (bases : List String) (z : List OrderItem),
    (∀ b ∈ bases, portionResolve b = none) →
    bases.foldl (portionStep isHalf) z = z := by
  intro bases
  induction bases with
  | nil => intro z _; rfl
  | cons b bases ih =>
    intro z h
    rw [List.foldl_cons, portionStep_none isHalf z b (h b (List.mem_cons_self b bases))]
    exact ih z (fun b' hb' => h b' (List.mem_cons_of_mem b hb'))

/-! ### Name and time loops -/

theorem nameStep_none (acc : Option String) : nameStep acc none = acc := rfl

theorem nameStep_some (acc : Option String) (nm : String) :
    nameStep acc (some nm) = if validName nm then some nm else acc := rfl

theorem extractName_fold_acc :
    ∀ (cands : List (Option String)) (acc : Option String),
    (∀ nm, some nm ∈ cands → validName nm = false) →
    cands.foldl nameStep acc = acc := by
  intro cands
  induction cands with
  | nil => intro acc _; rfl
  | cons c cands ih =>
    intro acc h
    rw [List.foldl_cons]
    have hstep : nameStep acc c = acc := by
      cases c with
      | none => rfl
      | some nm =>
        rw [nameStep_some, if_neg (by simp [h nm (List.mem_cons_self _ _)])]
    rw [hstep]
    exact ih acc (fun nm hm => h nm (List.mem_cons_of_mem c hm))

theorem extractName_invalid (cands : List (Option String))
    (h : ∀ nm, some nm ∈ cands → validName nm = false) : extractName cands = none :=
  extractName_fold_acc cands none h

theorem timeStep_none (acc : Option String) : timeStep acc none = acc := rfl

theorem timeStep_some (acc : Option String) (hm : Nat × Nat) :
    timeStep acc (some hm) =
      if hm.1 ≤ 23 && hm.2 ≤ 59 then some (pad2 hm.1 ++ ":" ++ pad2 hm.2) else acc := rfl

theorem extractTime_fold_acc :
    ∀ (cands : List (Option (Nat × Nat))) (acc : Option String),
    (∀ hm : Nat × Nat, some hm ∈ cands → ¬(hm.1 ≤ 23 ∧ hm.2 ≤ 59)) →
    cands.foldl timeStep acc = acc := by
  intro cands
  induction cands with
  | nil => intro acc _; rfl
  | cons c cands ih =>
    intro acc h
    rw [List.foldl_cons]
    have hstep : timeStep acc c = acc := by
      cases c with
      | none => rfl
      | some hm =>
        rw [timeStep_some,
          if_neg (fun hx => h hm (List.mem_cons_self _ _) (by simpa using hx))]
    rw [hstep]
    exact ih acc (fun hm hmem => h hm (List.mem_cons_of_mem c hmem))

theorem extractTime_invalid (cands : List (Option (Nat × Nat)))
    (h : ∀ hm : Nat × Nat, some hm ∈ cands → ¬(hm.1 ≤ 23 ∧ hm.2 ≤ 59)) :
    extractTime cands = none :=
  extractTime_fold_acc cands none h

theorem validName_of_filler (nm w : String) (hw : w ∈ commonWords)
    (hin : pyIn w (pyLower nm) = true) : validName nm = false := by
  unfold validName
  have hany : (commonWords.any fun w => pyIn w (pyLower nm)) = true :=
    List.any_eq_true.mpr ⟨w, hw, hin⟩
  rw [hany]
  simp

/-! ### Quantity of the last matching alias -/

theorem itemAll_lastQ (ml : String) (qms : List (Option (String × String))) :
    ∀ (ks : List (String × String)) (it : OrderItem) (q : Nat),
    lastMatchQ ml qms ks it.item = some q → (itemAll ml qms ks it).quantity = q := by
  intro ks
  induction ks with
  | nil =>
    intro it q hq
    simp [lastMatchQ, lastQAux] at hq
  | cons kv ks ih =>
    intro it q hq
    rw [itemAll_cons]
    by_cases hc : (pyIn kv.1 ml && kv.2 == it.item) = true
    · rcases Bool.and_eq_true_iff.mp hc with ⟨hpy, hn⟩
      rw [itemStep_of_match ml qms it kv hpy]
      rw [lastMatchQ_cons, if_pos hc] at hq
      have hui : (updateItem kv.2 (findQuantity qms kv.1) (persOf ml kv.1) it).item
          = it.item := updateItem_item _ _ _ _
      by_cases hmm : matchedIn ml ks it.item = true
      · apply ih _ q
        rw [hui]
        show lastQAux ml qms it.item none ks = some q
        rw [lastQAux_irrel ml qms it.item ks hmm none (some (findQuantity qms kv.1))]
        exact hq
      · have hmm' : matchedIn ml ks it.item = false := by simpa using hmm
        rw [lastQAux_of_nomatch ml qms it.item ks hmm'] at hq
        have hqv : findQuantity qms kv.1 = q := Option.some.inj hq
        have hfix : itemAll ml qms ks
            (updateItem kv.2 (findQuantity qms kv.1) (persOf ml kv.1) it)
            = updateItem kv.2 (findQuantity qms kv.1) (persOf ml kv.1) it :=
          itemAll_of_nomatch ml qms ks _ (by rw [hui]; exact hmm')
        rw [hfix]
        show (updateItem kv.2 (findQuantity qms kv.1) (persOf ml kv.1) it).quantity = q
        unfold updateItem
        rw [if_pos (beq_iff_eq.mpr (eq_of_beq hn).symm)]
        exact hqv
    · have hcf : (pyIn kv.1 ml && kv.2 == it.item) = false := by simpa using hc
      rw [itemStep_of_neg ml qms it kv hcf]
      apply ih it q
      rw [lastMatchQ_cons, if_neg (by simp [hcf])] at hq
      exact hq

/-! ### Conversation policy lemmas -/

theorem scanMeatQuestions_missing :
    ∀ (l : List OrderItem), (∃ it ∈ l, it.molho = none ∨ it.picante = none) →
    scanMeatQuestions l = some Action.askMolho ∨
      scanMeatQuestions l = some Action.askPicante := by
  intro l
  induction l with
  | nil =>
    intro h
    rcases h with ⟨it, hmem, _⟩
    exact absurd hmem (List.not_mem_nil it)
  | cons it rest ih =>
    intro h
    cases hmo : it.molho with
    | none =>
      left
      simp [scanMeatQuestions, hmo]
    | some v =>
      cases hpi : it.picante with
      | none =>
        right
        simp [scanMeatQuestions, hmo, hpi]
      | some w =>
        have hred : scanMeatQuestions (it :: rest) = scanMeatQuestions rest := by
          simp [scanMeatQuestions, hmo, hpi]
        rw [hred]
        apply ih
        rcases h with ⟨u, hmem, hmiss⟩
        rcases List.mem_cons.mp hmem with rfl | hm
        · rcases hmiss with h1 | h1
          · rw [hmo] at h1; cases h1
          · rw [hpi] at h1; cases h1
        · exact ⟨u, hm, hmiss⟩

theorem speechPolicy_meatQ (c : String) (od : OrderDetails) (act : Action)
    (h : firstMeatQuestion od.items = some act) : speechPolicy c od = (od, act) := by
  unfold speechPolicy
  rw [h]

theorem speechPolicy_state (c : String) (od : OrderDetails) :
    (speechPolicy c od).1 = od := by
  unfold speechPolicy
  cases firstMeatQuestion od.items with
  | some act => rfl
  | none => split_ifs <;> rfl

theorem processUserSpeech_state (c : String) (a : TextAnalysis) (od : OrderDetails) :
    (processUserSpeech c a od).1 = extractOrderDetails c a true od :=
  speechPolicy_state c _

/-! ### Uniqueness of canonical names -/

/-- The canonical names of the order lines, in order. -/
def itemNames (items : List OrderItem) : List String := items.map (fun it => it.item)

theorem itemNames_map_of_item_eq {f : OrderItem → OrderItem}
    (hf : ∀ it, (f it).item = it.item) (items : List OrderItem) :
    itemNames (items.map f) = itemNames items := by
  simp [itemNames, List.map_map, Function.comp_def, hf]

theorem not_containsName_notin (n : String) (y : List OrderItem)
    (h : (y.any fun it => it.item == n) ≠ true) : n ∉ itemNames y := by
  intro hmem
  rcases List.mem_map.mp hmem with ⟨u, hu, he⟩
  exact h (List.any_eq_true.mpr ⟨u, hu, beq_iff_eq.mpr he⟩)

theorem nodup_append_singleton {α : Type} (l : List α) (x : α)
    (h : l.Nodup) (hx : x ∉ l) : (l ++ [x]).Nodup := by
  rw [List.nodup_append]
  exact ⟨h, List.nodup_singleton x, fun y hy hy2 => by
    rw [List.mem_singleton] at hy2
    exact hx (hy2 ▸ hy)⟩

theorem nodup_directStep (ml : String) (qms : List (Option (String × String)))
    (y : List OrderItem) (kv : String × String) (h : (itemNames y).Nodup) :
    (itemNames (directStep ml qms y kv)).Nodup := by
  unfold directStep
  by_cases hpy : pyIn kv.1 ml = true
  · rw [if_pos hpy]
    by_cases hcon : (y.any fun it => it.item == kv.2) = true
    · rw [if_pos hcon]
      rwa [itemNames_map_of_item_eq (fun it => updateItem_item _ _ _ it)]
    · rw [if_neg hcon]
      show (itemNames (y ++
        [(⟨kv.2, findQuantity qms kv.1, (persOf ml kv.1).1, (persOf ml kv.1).2⟩ :
          OrderItem)])).Nodup
      have hnames : itemNames (y ++
          [(⟨kv.2, findQuantity qms kv.1, (persOf ml kv.1).1, (persOf ml kv.1).2⟩ :
            OrderItem)])
          = itemNames y ++ [kv.2] := by
        simp [itemNames]
      rw [hnames]
      exact nodup_append_singleton _ _ h (not_containsName_notin kv.2 y hcon)
  · rw [if_neg hpy]
    exact h

theorem nodup_fold (ml : String) (qms : List (Option (String × String))) :
    ∀ (ks : List (String × String)) (y : List OrderItem), (itemNames y).Nodup →
    (itemNames (ks.foldl (directStep ml qms) y)).Nodup := by
  intro ks
  induction ks with
  | nil => intro y h; exact h
  | cons kv ks ih =>
    intro y h
    rw [List.foldl_cons]
    exact ih _ (nodup_directStep ml qms y kv h)

theorem nodup_portionStep (isHalf : Bool) (z : List OrderItem) (b : String)
    (h : (itemNames z).Nodup) : (itemNames (portionStep isHalf z b)).Nodup := by
  cases hres : portionResolve b with
  | none => rw [portionStep_none isHalf z b hres]; exact h
  | some name =>
    cases hcon : (z.any fun it => it.item == portionFullName isHalf name) with
    | true => rw [portionStep_some_present isHalf z b name hres hcon]; exact h
    | false =>
      rw [portionStep_some_absent isHalf z b name hres hcon]
      have hnames : itemNames (z ++
          [(⟨portionFullName isHalf name, 1, none, none⟩ : OrderItem)])
          = itemNames z ++ [portionFullName isHalf name] := by
        simp [itemNames]
      rw [hnames]
      exact nodup_append_singleton _ _ h
        (not_containsName_notin _ z (by simp [hcon]))

theorem nodup_portionFold (isHalf : Bool) :
    ∀ (bases : List String) (z : List OrderItem), (itemNames z).Nodup →
    (itemNames (bases.foldl (portionStep isHalf) z)).Nodup := by
  intro bases
  induction bases with
  | nil => intro z h; exact h
  | cons b bases ih =>
    intro z h
    rw [List.foldl_cons]
    exact ih _ (nodup_portionStep isHalf z b h)

theorem nodup_extract (msg : String) (a : TextAnalysis) (u : Bool) (od : OrderDetails)
    (h : (itemNames od.items).Nodup) :
    (itemNames (extractOrderDetails msg a u od).items).Nodup := by
  rw [extract_items]
  unfold itemsPipeline portionPhase broadPhase
  rw [itemNames_map_of_item_eq (fun it => broadStep_item _ it)]
  apply nodup_portionFold
  apply nodup_portionFold
  cases u with
  | true =>
    rw [if_pos rfl]
    exact nodup_fold (pyLower msg) a.quantityMatches menuItems od.items h
  | false =>
    rw [if_neg (by simp)]
    exact h

/-! ### Field lemmas for the broad modifier attribution -/

theorem broadStep_molho_some (ml : String) (it : OrderItem) (v : String)
    (h : it.molho = some v) : (broadStep ml it).molho = some v := by
  unfold broadStep
  by_cases hm : meatCapName it.item = true
  · rw [if_pos hm]
    show (match it.molho with
      | some v => some v
      | none => molhosList.find? (fun m => pyIn m ml)) = some v
    rw [h]
  · rw [if_neg hm]; exact h

theorem broadStep_molho_none (ml : String) (it : OrderItem)
    (hm : meatCapName it.item = true) (h : it.molho = none) :
    (broadStep ml it).molho = molhosList.find? (fun m => pyIn m ml) := by
  unfold broadStep
  rw [if_pos hm]
  show (match it.molho with
    | some v => some v
    | none => molhosList.find? (fun m => pyIn m ml)) = _
  rw [h]

theorem broadStep_picante_some (ml : String) (it : OrderItem) (v : String)
    (h : it.picante = some v) : (broadStep ml it).picante = some v := by
  unfold broadStep
  by_cases hm : meatCapName it.item = true
  · rw [if_pos hm]
    show (match it.picante with
      | some v => some v
      | none => picanteList.find? (fun p => pyIn p ml)) = some v
    rw [h]
  · rw [if_neg hm]; exact h

theorem broadStep_picante_none (ml : String) (it : OrderItem)
    (hm : meatCapName it.item = true) (h : it.picante = none) :
    (broadStep ml it).picante = picanteList.find? (fun p => pyIn p ml) := by
  unfold broadStep
  rw [if_pos hm]
  show (match it.picante with
    | some v => some v
    | none => picanteList.find? (fun p => pyIn p ml)) = _
  rw [h]

theorem broadStep_notmeat (ml : String) (it : OrderItem)
    (hm : meatCapName it.item = false) : broadStep ml it = it := by
  unfold broadStep
  rw [if_neg (by simp [hm])]

/-! ### Concrete inputs used by the claim instances (regex captures computed
from the source pattern lists on each message) -/

/-- Analysis of a message none of whose regex patterns match. -/
def quietTA : TextAnalysis :=
  ⟨[none, none, none, none], [none, none, none, none], [none, none], [], []⟩

/-- Analysis of `"quero uma batata frita barrosa"` / `"quero uma espetada de
frango"`: only the two-word name fallback matches, capturing `"quero uma"`. -/
def queroTA : TextAnalysis :=
  { quietTA with nameMatches := [none, none, none, some "quero uma"] }

/-- Analysis of `"frango do churrasco"`-style messages: the two-word name
fallback captures `"frango do"`. -/
def frangoTA : TextAnalysis :=
  { quietTA with nameMatches := [none, none, none, some "frango do"] }

/-- Analysis of `"uma dose de arroz"`: name fallback captures `"uma dose"`;
the full-portion pattern captures `"arroz"`. -/
def doseTA : TextAnalysis :=
  { quietTA with nameMatches := [none, none, none, some "uma dose"],
                 portionFull := ["arroz"] }

/-- Analysis of `"molho da casa e pouco picante"`: only the name fallback
matches, capturing `"molho da"`. -/
def molhoTA : TextAnalysis :=
  { quietTA with nameMatches := [none, none, none, some "molho da"] }

/-- Analysis of `"claudia mendes"`: the name fallback captures the full name. -/
def claudiaTA : TextAnalysis :=
  { quietTA with nameMatches := [none, none, none, some "claudia mendes"] }

/-- Analysis of `"joana prata às 20h15"`: a valid name candidate, a valid
time candidate, and a second-quantity-pattern match on the digits. -/
def joanaTA : TextAnalysis :=
  { quietTA with nameMatches := [none, none, none, some "joana prata"],
                 timeMatches := [some (20, 15), none, none, none],
                 quantityMatches := [none, some ("joana prata às", "20")] }

/-- An analysis carrying only invalid / unresolvable candidates. -/
def badTA : TextAnalysis :=
  ⟨[none, none, none, some "quero"], [some (25, 0), none, none, none],
   [none, none], ["zzz"], []⟩

/-- Analysis of `"costeleta de porco com molho da guia"`: the name fallback
captures `"costeleta de"`. -/
def costeletaTA : TextAnalysis :=
  { quietTA with nameMatches := [none, none, none, some "costeleta de"] }

/-- State with the name captured but the pickup time still unset. -/
def odNameOnly : OrderDetails := ⟨some "maria silva", none, []⟩

/-- State with the pickup time captured but the name still unset. -/
def odTimeOnly : OrderDetails := ⟨none, some "15:30", []⟩

/-- State with one meat item, no modifiers, name and time already set. -/
def odMeat : OrderDetails :=
  ⟨some "maria silva", some "15:30", [⟨"Frango do Churrasco", 1, none, none⟩]⟩

/-- State with one meat item and no modifiers, nothing else set. -/
def odMeatNT : OrderDetails := ⟨none, none, [⟨"Frango do Churrasco", 1, none, none⟩]⟩

/-- State holding three chickens. -/
def odFrango3 : OrderDetails := ⟨none, none, [⟨"Frango do Churrasco", 3, none, none⟩]⟩

/-- State whose chicken already has a sauce and a spice level. -/
def odGuia : OrderDetails :=
  ⟨none, none, [⟨"Frango do Churrasco", 1, some "molho da guia", some "picante"⟩]⟩

/-! ### The claims -/

/-- C1: Extraction is idempotent — for every utterance (analysis) and every
order state, running `_extract_order_details` a second time with the same
text and speaker flag on the state produced by the first run changes
nothing: no item is added or duplicated, no quantity or modifier changes,
and `customer_name` and `pickup_time` keep their values. -/
theorem c1_extraction_idempotent (msg : String) (a : TextAnalysis) (isUser : Bool)
    (od : OrderDetails) :
    extractOrderDetails msg a isUser (extractOrderDetails msg a isUser od) =
      extractOrderDetails msg a isUser od := by
  apply OrderDetails.ext'
  · show (match (match od.customer_name with
        | some n => some n
        | none => extractName a.nameMatches) with
      | some n => some n
      | none => extractName a.nameMatches) =
      (match od.customer_name with
      | some n => some n
      | none => extractName a.nameMatches)
    cases od.customer_name with
    | some n => rfl
    | none =>
      cases extractName a.nameMatches with
      | some n => rfl
      | none => rfl
  · show (match (match od.pickup_time with
        | some t => some t
        | none => extractTime a.timeMatches) with
      | some t => some t
      | none => extractTime a.timeMatches) =
      (match od.pickup_time with
      | some t => some t
      | none => extractTime a.timeMatches)
    cases od.pickup_time with
    | some t => rfl
    | none =>
      cases extractTime a.timeMatches with
      | some t => rfl
      | none => rfl
  · show itemsPipeline (pyLower msg) a.quantityMatches a.portionFull a.portionHalf isUser
      (itemsPipeline (pyLower msg) a.quantityMatches a.portionFull a.portionHalf isUser
        od.items) =
      itemsPipeline (pyLower msg) a.quantityMatches a.portionFull a.portionHalf isUser od.items
    exact itemsPipeline_idem (pyLower msg) a.quantityMatches a.portionFull a.portionHalf
      isUser od.items

/-- C4: Item uniqueness invariant — after any sequence of processed messages
(from either speaker), the order's items list never contains two entries
with the same canonical item name. -/
theorem c4_item_names_nodup (msgs : List (String × TextAnalysis × Bool)) :
    (itemNames (runMessages msgs).items).Nodup := by
  suffices haux : ∀ (ms : List (String × TextAnalysis × Bool)) (od : OrderDetails),
      (itemNames od.items).Nodup →
      (itemNames (ms.foldl (fun od m => extractOrderDetails m.1 m.2.1 m.2.2 od) od).items).Nodup by
    exact haux msgs emptyOrder (by simp [emptyOrder, itemNames])
  intro ms
  induction ms with
  | nil => intro od h; exact h
  | cons m ms ih =>
    intro od h
    rw [List.foldl_cons]
    exact ih _ (nodup_extract m.1 m.2.1 m.2.2 od h)

/-- C6: First-write-wins for `customer_name` and, independently, for
`pickup_time` — in every state where a field is set (regardless of the
other field), processing any further message (either speaker, any content,
including through the per-turn handler) leaves that field's value
unchanged. -/
theorem c6_first_write_wins (msg : String) (a : TextAnalysis) (u : Bool)
    (od : OrderDetails) :
    (∀ n, od.customer_name = some n →
      (extractOrderDetails msg a u od).customer_name = some n ∧
      (processUserSpeech msg a od).1.customer_name = some n) ∧
    (∀ t, od.pickup_time = some t →
      (extractOrderDetails msg a u od).pickup_time = some t ∧
      (processUserSpeech msg a od).1.pickup_time = some t) := by
  constructor
  · intro n hn
    constructor
    · rw [extract_name, hn]
    · rw [processUserSpeech_state, extract_name, hn]
  · intro t ht
    constructor
    · rw [extract_time, ht]
    · rw [processUserSpeech_state, extract_time, ht]

/-- Witness for C6, at both one-field states: with only the name captured
(time still unset), a message carrying a fresh valid name candidate and a
valid time does not overwrite the name; with only the time captured, the
same message does not overwrite the time. -/
theorem c6_first_write_wins_witness :
    (extractOrderDetails "joana prata às 20h15" joanaTA true odNameOnly).customer_name
        = some "maria silva" ∧
    (processUserSpeech "joana prata às 20h15" joanaTA odNameOnly).1.customer_name
        = some "maria silva" ∧
    (extractOrderDetails "joana prata às 20h15" joanaTA true odTimeOnly).pickup_time
        = some "15:30" ∧
    (processUserSpeech "joana prata às 20h15" joanaTA odTimeOnly).1.pickup_time
        = some "15:30" :=
  ⟨((c6_first_write_wins "joana prata às 20h15" joanaTA true odNameOnly).1
      "maria silva" rfl).1,
   ((c6_first_write_wins "joana prata às 20h15" joanaTA true odNameOnly).1
      "maria silva" rfl).2,
   ((c6_first_write_wins "joana prata às 20h15" joanaTA true odTimeOnly).2
      "15:30" rfl).1,
   ((c6_first_write_wins "joana prata às 20h15" joanaTA true odTimeOnly).2
      "15:30" rfl).2⟩

/-- C10: Filler rejection is by substring, not by word — a name candidate is
rejected (and `customer_name` keeps its value, in particular stays unset)
whenever every candidate contains a block-listed filler word anywhere inside
its text, including inside a longer word. -/
theorem c10_filler_substring_rejection (msg : String) (a : TextAnalysis) (u : Bool)
    (od : OrderDetails)
    (h : ∀ nm, some nm ∈ a.nameMatches → ∃ w ∈ commonWords, pyIn w (pyLower nm) = true) :
    (extractOrderDetails msg a u od).customer_name = od.customer_name := by
  rw [extract_name]
  cases od.customer_name with
  | some n => rfl
  | none =>
    show extractName a.nameMatches = none
    apply extractName_invalid
    intro nm hmem
    rcases h nm hmem with ⟨w, hw, hin⟩
    exact validName_of_filler nm w hw hin

/-- Witness for C10: `"claudia mendes"` is rejected because `"dia"` occurs
inside `"claudia"`, so the name stays unset. -/
theorem c10_filler_substring_rejection_witness :
    (extractOrderDetails "claudia mendes" claudiaTA true emptyOrder).customer_name = none := by
  have h := c10_filler_substring_rejection "claudia mendes" claudiaTA true emptyOrder ?_
  · exact h
  · intro nm hmem
    simp only [claudiaTA, quietTA, List.mem_cons, List.not_mem_nil, or_false,
      reduceCtorEq, false_or, Option.some.injEq] at hmem
    subst hmem
    exact ⟨"dia", by decide, by decide⟩

/-- Counterexample to C2: resolution is not longest-alias-wins — on
`"quero uma batata frita barrosa"` both the alias `"batata frita"` and the
longer alias `"batata frita barrosa"` match, and the engine records BOTH
canonical items instead of only the longest alias's one. -/
theorem c2_counterexample :
    pyIn "batata frita" (pyLower "quero uma batata frita barrosa") = true ∧
    pyIn "batata frita barrosa" (pyLower "quero uma batata frita barrosa") = true ∧
    (extractOrderDetails "quero uma batata frita barrosa" queroTA true emptyOrder).items.map
      (fun it => it.item) = ["Dose de Batata Frita", "Dose de Batata Frita Barrosa"] :=
  ⟨by decide, by decide, by decide⟩

/-- C2 amended: every matching alias contributes its canonical item
(de-duplicated by canonical name, in declaration order) — there is no
longest-alias-wins rule; the utterance `"quero uma espetada de frango"`
still yields exactly one order item, because only the alias
`"espetada de frango"` matches it. -/
theorem c2_amended_every_alias_records :
    (extractOrderDetails "quero uma espetada de frango" queroTA true emptyOrder).items
      = [⟨"Espetada de Frango c/ Bacon", 1, none, none⟩] := by
  decide

/-- Counterexample to C3: a state whose single meat item has no sauce and no
spice level recorded, with name and time already set, processed with an
utterance that itself supplies both modifiers — the response is silence,
not an ask-for-missing-modifier. -/
theorem c3_counterexample :
    odMeat.customer_name = some "maria silva" ∧ odMeat.pickup_time = some "15:30" ∧
    meatLow ⟨"Frango do Churrasco", 1, none, none⟩ = true ∧
    odMeat.items = [⟨"Frango do Churrasco", 1, none, none⟩] ∧
    (processUserSpeech "molho da casa e pouco picante" molhoTA odMeat).2 = Action.silent :=
  ⟨rfl, rfl, by decide, rfl, by decide⟩

/-- C3 amended: modifier questions take priority over completion-field
questions on the post-extraction state — whenever, after extracting the
current utterance, the order still contains a meat item with a missing
sauce or spice level, the per-turn handler answers `Molho?` or `Picante?`,
never a name/time question, a summary, or a confirmation — even when
`customer_name` and `pickup_time` are already set. -/
theorem c3_amended_modifier_priority (content : String) (a : TextAnalysis)
    (od : OrderDetails)
    (h : ∃ it ∈ (extractOrderDetails content a true od).items,
      meatLow it = true ∧ (it.molho = none ∨ it.picante = none)) :
    (processUserSpeech content a od).2 = Action.askMolho ∨
      (processUserSpeech content a od).2 = Action.askPicante := by
  rcases h with ⟨it, hmem, hml, hmiss⟩
  have hscan := scanMeatQuestions_missing
    ((extractOrderDetails content a true od).items.filter meatLow)
    ⟨it, List.mem_filter.mpr ⟨hmem, hml⟩, hmiss⟩
  rcases hscan with h' | h'
  · left
    show (speechPolicy content (extractOrderDetails content a true od)).2 = _
    rw [speechPolicy_meatQ content _ Action.askMolho h']
  · right
    show (speechPolicy content (extractOrderDetails content a true od)).2 = _
    rw [speechPolicy_meatQ content _ Action.askPicante h']

/-- Witness for C3 amended: a meat item with no modifiers and a neutral
utterance produce a modifier question. -/
theorem c3_amended_modifier_priority_witness :
    (processUserSpeech "olá" quietTA odMeatNT).2 = Action.askMolho ∨
      (processUserSpeech "olá" quietTA odMeatNT).2 = Action.askPicante := by
  apply c3_amended_modifier_priority
  decide

/-- Counterexample to C5: re-mentioning an item with NO explicit quantity in
the utterance still rewrites the stored quantity — the chicken's quantity 3
is reset to the default 1 by the bare re-mention `"frango do churrasco"`. -/
theorem c5_counterexample :
    odFrango3.items = [⟨"Frango do Churrasco", 3, none, none⟩] ∧
    frangoTA.quantityMatches = [none, none] ∧
    (extractOrderDetails "frango do churrasco" frangoTA true odFrango3).items
      = [⟨"Frango do Churrasco", 1, none, none⟩] :=
  ⟨rfl, rfl, by decide⟩

/-- C5 amended: when an utterance re-mentions an existing item, the stored
quantity is overwritten with the quantity computed from this utterance for
the last matching alias of that item — which defaults to 1 when the
utterance supplies no explicit quantity. -/
theorem c5_amended_quantity_overwrite (msg : String) (a : TextAnalysis)
    (od : OrderDetails) (i : Nat) (it : OrderItem) (q : Nat)
    (hit : od.items.get? i = some it)
    (hq : lastMatchQ (pyLower msg) a.quantityMatches menuItems it.item = some q) :
    ∃ it', (extractOrderDetails msg a true od).items.get? i = some it' ∧
      it'.item = it.item ∧ it'.quantity = q := by
  refine ⟨broadStep (pyLower msg) (itemAll (pyLower msg) a.quantityMatches menuItems it),
    ?_, ?_, ?_⟩
  · rw [extract_items]
    unfold itemsPipeline
    rw [if_pos rfl]
    apply broadPhase_get
    apply portionPhase_get
    unfold directPhase
    exact fold_get (pyLower msg) a.quantityMatches menuItems od.items i it hit
  · rw [broadStep_item, itemAll_item]
  · rw [broadStep_quantity]
    exact itemAll_lastQ (pyLower msg) a.quantityMatches menuItems it q hq

/-- Witness for C5 amended: the bare re-mention resets quantity 3 to the
computed default 1. -/
theorem c5_amended_quantity_overwrite_witness :
    odFrango3.items.get? 0 = some ⟨"Frango do Churrasco", 3, none, none⟩ ∧
    lastMatchQ (pyLower "frango do churrasco") frangoTA.quantityMatches menuItems
      "Frango do Churrasco" = some 1 ∧
    ∃ it', (extractOrderDetails "frango do churrasco" frangoTA true odFrango3).items.get? 0
        = some it' ∧ it'.item = "Frango do Churrasco" ∧ it'.quantity = 1 :=
  ⟨rfl, by decide,
    c5_amended_quantity_overwrite "frango do churrasco" frangoTA odFrango3 0
      ⟨"Frango do Churrasco", 3, none, none⟩ 1 rfl (by decide)⟩

/-- Counterexample to C7: extraction on an assistant-authored message
(`is_user=False`) does NOT leave the items list unchanged — the
portion-pattern block is not gated to customer turns, so the assistant
message `"uma dose de arroz"` inserts an item into an empty order. -/
theorem c7_counterexample :
    emptyOrder.items = [] ∧
    (extractOrderDetails "uma dose de arroz" doseTA false emptyOrder).items
      = [⟨"Dose de Arroz", 1, none, none⟩] :=
  ⟨rfl, by decide⟩

/-- C7 amended: on assistant turns only the direct-mention/quantity block is
skipped — every already-present item keeps its canonical name and quantity
at its position (only modifiers may be attached), while the ungated
portion-pattern block may still append new items at the end, and name/time
extraction still applies. -/
theorem c7_amended_assistant_frame (msg : String) (a : TextAnalysis) (od : OrderDetails)
    (i : Nat) (it : OrderItem) (hit : od.items.get? i = some it) :
    ∃ it', (extractOrderDetails msg a false od).items.get? i = some it' ∧
      it'.item = it.item ∧ it'.quantity = it.quantity := by
  refine ⟨broadStep (pyLower msg) it, ?_, broadStep_item _ _, broadStep_quantity _ _⟩
  rw [extract_items]
  unfold itemsPipeline
  rw [if_neg (by simp)]
  exact broadPhase_get _ _ _ _ (portionPhase_get _ _ _ _ _ hit)

/-- Witness for C7 amended: an existing item keeps name and quantity across
an assistant turn that also appends a portion item. -/
theorem c7_amended_assistant_frame_witness :
    ∃ it', (extractOrderDetails "uma dose de arroz" doseTA false
      ⟨none, none, [⟨"Coelho", 2, none, none⟩]⟩).items.get? 0 = some it' ∧
      it'.item = "Coelho" ∧ it'.quantity = 2 :=
  c7_amended_assistant_frame "uma dose de arroz" doseTA
    ⟨none, none, [⟨"Coelho", 2, none, none⟩]⟩ 0 ⟨"Coelho", 2, none, none⟩ rfl

/-- Counterexample to C8: an item that already has a sauce does NOT keep its
previous value when the message re-mentions the item directly — the update
arm replaces the whole modifier dict, turning `molho da guia` into
`molho da casa` and erasing the spice level entirely. -/
theorem c8_counterexample :
    pyIn "molho da casa" (pyLower "frango do churrasco com molho da casa") = true ∧
    odGuia.items = [⟨"Frango do Churrasco", 1, some "molho da guia", some "picante"⟩] ∧
    (extractOrderDetails "frango do churrasco com molho da casa" frangoTA true odGuia).items
      = [⟨"Frango do Churrasco", 1, some "molho da casa", none⟩] :=
  ⟨by decide, rfl, by decide⟩

/-- C8 amended: broad modifier attribution holds for items the message does
not directly re-mention — a sauce/spice mention is attached to every
meat-category item still missing that modifier kind (first vocabulary entry
found in the message), items keep name and quantity, and modifier kinds
already set keep their previous value; directly re-mentioned items are
instead subject to the update arm's dict replacement. -/
theorem c8_amended_broad_attribution (msg : String) (a : TextAnalysis) (u : Bool)
    (od : OrderDetails) (i : Nat) (it : OrderItem)
    (hit : od.items.get? i = some it)
    (hno : ∀ kv ∈ menuItems, pyIn kv.1 (pyLower msg) = true → kv.2 ≠ it.item) :
    ∃ it', (extractOrderDetails msg a u od).items.get? i = some it' ∧
      it'.item = it.item ∧ it'.quantity = it.quantity ∧
      (∀ v, it.molho = some v → it'.molho = some v) ∧
      (∀ v, it.picante = some v → it'.picante = some v) ∧
      (meatCapName it.item = true → it.molho = none →
        it'.molho = molhosList.find? (fun m => pyIn m (pyLower msg))) ∧
      (meatCapName it.item = true → it.picante = none →
        it'.picante = picanteList.find? (fun p => pyIn p (pyLower msg))) := by
  have hmi : matchedIn (pyLower msg) menuItems it.item = false := by
    by_contra hx
    rcases List.any_eq_true.mp
      (show (menuItems.any fun kv => pyIn kv.1 (pyLower msg) && kv.2 == it.item) = true by
        simpa [matchedIn] using hx) with ⟨kv, hkv, hcond⟩
    rcases Bool.and_eq_true_iff.mp hcond with ⟨hpy, hn⟩
    exact hno kv hkv hpy (eq_of_beq hn)
  have hstep : (if u = true then directPhase (pyLower msg) a.quantityMatches od.items
      else od.items).get? i = some it := by
    cases u with
    | false =>
      rw [if_neg (by simp)]
      exact hit
    | true =>
      rw [if_pos rfl]
      unfold directPhase
      have hg := fold_get (pyLower msg) a.quantityMatches menuItems od.items i it hit
      rwa [itemAll_of_nomatch (pyLower msg) a.quantityMatches menuItems it hmi] at hg
  refine ⟨broadStep (pyLower msg) it, ?_, broadStep_item _ _, broadStep_quantity _ _,
    ?_, ?_, ?_, ?_⟩
  · rw [extract_items]
    unfold itemsPipeline
    exact broadPhase_get _ _ _ _ (portionPhase_get _ _ _ _ _ hstep)
  · intro v hv
    exact broadStep_molho_some _ _ v hv
  · intro v hv
    exact broadStep_picante_some _ _ v hv
  · intro hm hnone
    exact broadStep_molho_none _ _ hm hnone
  · intro hm hnone
    exact broadStep_picante_none _ _ hm hnone

/-- Witness for C8 amended: a half chicken that the message does not
re-mention gets the mentioned sauce attached (it had none) and keeps its
spice level. -/
theorem c8_amended_broad_attribution_witness :
    (∀ kv ∈ menuItems, pyIn kv.1 (pyLower "costeleta de porco com molho da guia") = true →
      kv.2 ≠ "1/2 Frango do Churrasco") ∧
    ∃ it', (extractOrderDetails "costeleta de porco com molho da guia" costeletaTA true
        ⟨none, none, [⟨"1/2 Frango do Churrasco", 1, none, some "picante"⟩]⟩).items.get? 0
        = some it' ∧
      it'.item = "1/2 Frango do Churrasco" ∧ it'.quantity = 1 ∧
      (∀ v, (some "picante" : Option String) = some v → it'.picante = some v) ∧
      it'.molho = molhosList.find?
        (fun m => pyIn m (pyLower "costeleta de porco com molho da guia")) := by
  refine ⟨by decide, ?_⟩
  rcases c8_amended_broad_attribution "costeleta de porco com molho da guia" costeletaTA true
      ⟨none, none, [⟨"1/2 Frango do Churrasco", 1, none, some "picante"⟩]⟩ 0
      ⟨"1/2 Frango do Churrasco", 1, none, some "picante"⟩ rfl (by decide)
    with ⟨it', hget, hitem, hqty, _, hpk, hmol, _⟩
  exact ⟨it', hget, hitem, hqty, hpk, hmol (by decide) rfl⟩

/-- C9: Engine totality and silent discard — extraction and the per-turn
response logic are total functions of their inputs (every definition above
is a terminating function, so every input yields a state, never an abort),
and malformed candidates are silently discarded: when every name candidate
fails the filter, every time candidate is out of range, no menu alias
occurs in the message and no portion capture resolves, the name and time
fields keep their values and the items list is at most re-traversed by the
modifier-attribution map. -/
theorem c9_totality_silent_discard (msg : String) (a : TextAnalysis) (u : Bool)
    (od : OrderDetails)
    (hname : ∀ nm, some nm ∈ a.nameMatches → validName nm = false)
    (htime : ∀ hm : Nat × Nat, some hm ∈ a.timeMatches → ¬(hm.1 ≤ 23 ∧ hm.2 ≤ 59))
    (hkeys : ∀ kv ∈ menuItems, pyIn kv.1 (pyLower msg) = false)
    (hp0 : ∀ b ∈ a.portionFull, portionResolve b = none)
    (hp1 : ∀ b ∈ a.portionHalf, portionResolve b = none) :
    (extractOrderDetails msg a u od).customer_name = od.customer_name ∧
    (extractOrderDetails msg a u od).pickup_time = od.pickup_time ∧
    (extractOrderDetails msg a u od).items = od.items.map (broadStep (pyLower msg)) ∧
    (processUserSpeech msg a od).1 = extractOrderDetails msg a true od := by
  refine ⟨?_, ?_, ?_, processUserSpeech_state msg a od⟩
  · rw [extract_name]
    cases od.customer_name with
    | some n => rfl
    | none => exact extractName_invalid _ hname
  · rw [extract_time]
    cases od.pickup_time with
    | some t => rfl
    | none => exact extractTime_invalid _ htime
  · rw [extract_items]
    unfold itemsPipeline portionPhase broadPhase
    rw [portionFold_id_noresolve true _ _ hp1, portionFold_id_noresolve false _ _ hp0]
    cases u with
    | true =>
      rw [if_pos rfl]
      unfold directPhase
      rw [fold_id_of_nokeys _ _ menuItems od.items hkeys]
    | false =>
      rw [if_neg (by simp)]

/-- Witness for C9: an unmatchable message with an invalid name candidate, an
out-of-range time candidate and an unresolvable portion capture leaves the
empty order empty. -/
theorem c9_totality_silent_discard_witness :
    (extractOrderDetails "olá" badTA true emptyOrder).customer_name = none ∧
    (extractOrderDetails "olá" badTA true emptyOrder).pickup_time = none ∧
    (extractOrderDetails "olá" badTA true emptyOrder).items = [] ∧
    (processUserSpeech "olá" badTA emptyOrder).1 = extractOrderDetails "olá" badTA true emptyOrder := by
  have h := c9_totality_silent_discard "olá" badTA true emptyOrder ?_ ?_ ?_ ?_ ?_
  · exact h
  · intro nm hmem
    simp only [badTA, List.mem_cons, List.not_mem_nil, or_false, reduceCtorEq,
      false_or, Option.some.injEq] at hmem
    subst hmem
    decide
  · intro hm hmem
    simp only [badTA, List.mem_cons, List.not_mem_nil, or_false, reduceCtorEq,
      false_or, Option.some.injEq] at hmem
    subst hmem
    decide
  · decide
  · decide
  · decide

end RestaurantAI
